import Mathlib

/-!
Verification of the `lib.bundle` source bundler (file `src/lib/bundle.py`).

The development is a shallow embedding of `bundle.py` into Lean:

* Python AST nodes (`ast.Expr` / `ast.stmt` as used by the bundler) become the
  inductive types `PyExpr` and `Stmt`.  Only the node shapes the bundler
  inspects are modelled; expression-level structure is a representative
  fragment (names with load/store context, constants, calls, binary
  operations, attributes) sufficient for the identifier-load traversal
  `_name_loads_in` performs with `ast.walk`.
* A source file is a `List Line`, one element per physical unit: a blank
  line, a comment line (carrying its text), or a statement.  Under this model
  `ast.parse` is `parseLines` (statements paired with their 1-based line
  numbers), `ast.get_source_segment` of a top-level node is the node itself,
  and the bundler's line-range surgery (`splitlines`, deletions by
  `lineno`/`end_lineno`, `lstrip`, `rstrip`) becomes list surgery on `Line`s.
  The model therefore represents each top-level statement as a single line
  unit and canonical spellings of import statements (`renderStmt`).
* Python dicts keyed by strings become association lists with
  dict-assignment (`dset`, overwrite) and `setdefault` (`dsetdef`) updates,
  or update functions `String → α` where only pointwise lookup matters.
* Python exceptions become `Except BundleErr`.  `BundleErr` constructors
  carry the data interpolated into the corresponding `BundleError` message.
* The unbounded `while` loops (the symbol-closure queue in `bundle_file` and
  the ready-queue of `_toposort_symbols`) are written with explicit fuel; a
  distinguished `BundleErr.fuelExhausted` marks fuel running out, and the
  development proves the fuel supplied by the embedding is never exhausted,
  which is exactly the termination of the Python loops.
* File I/O is abstracted: `bundle_file` receives the entry file contents and
  a finite map from module names to module file contents (the composition of
  `_resolve_module_path` and `read_text`); `_resolve_module_path` itself is
  modelled separately over an explicit set of existing paths.
-/

namespace Bundle

/-- Expression context of a Python `ast.Name` node (`ast.Load` / `ast.Store`). -/
inductive Ctx where
  | load
  | store
deriving DecidableEq, Repr

/-- Fragment of Python expressions as seen by `_name_loads_in` (`ast.walk`
collecting `ast.Name` nodes whose `ctx` is `ast.Load`). -/
inductive PyExpr where
  | ename (id : String) (ctx : Ctx)
  | econst (v : Nat)
  | call (f : PyExpr) (arg : PyExpr)
  | binOp (l : PyExpr) (r : PyExpr)
  | attr (v : PyExpr) (field : String)
deriving DecidableEq, Repr

/-- Python `ast.alias`: an imported name with optional `as` binding. -/
structure PyAlias where
  name : String
  asname : Option String
deriving DecidableEq, Repr

/-- Python `ast.arg`: a formal parameter with optional annotation
(field `ann` models `arg.annotation`). -/
structure PyArg where
  id : String
  ann : Option PyExpr
deriving DecidableEq, Repr

/-- Python `ast.arguments`. -/
structure PyArgs where
  posonlyargs : List PyArg
  args : List PyArg
  kwonlyargs : List PyArg
  vararg : Option PyArg
  kwarg : Option PyArg
  defaults : List PyExpr
  kw_defaults : List (Option PyExpr)
deriving DecidableEq, Repr

/-- Python `ast.keyword` in a class header. -/
structure PyKeyword where
  arg : Option String
  value : PyExpr
deriving DecidableEq, Repr

/-- Statements appearing inside a function or class body.  The bundler never
inspects body statements structurally: bodies are only traversed by
`_name_loads_in` (`ast.walk`), so a flat fragment of simple statements is a
faithful model of the bodies the development quantifies over. -/
inductive BStmt where
  | bexpr (e : PyExpr)
  | bret (e : Option PyExpr)
  | bassign (targets : List PyExpr) (value : PyExpr)
  | bpass
deriving DecidableEq, Repr

/-- Top-level statements of the Python AST fragment the bundler inspects.
`functionDef`/`asyncFunctionDef`/`classDef` keep their bodies, decorator
lists and header expressions; all other statement kinds the bundler treats
uniformly are either modelled precisely (imports, assignments) or fall into
`exprStmt`/`passStmt`/`retStmt`. -/
inductive Stmt where
  | functionDef (name : String) (decorator_list : List PyExpr) (args : PyArgs)
      (returns : Option PyExpr) (body : List BStmt)
  | asyncFunctionDef (name : String) (decorator_list : List PyExpr) (args : PyArgs)
      (returns : Option PyExpr) (body : List BStmt)
  | classDef (name : String) (decorator_list : List PyExpr) (bases : List PyExpr)
      (keywords : List PyKeyword) (body : List BStmt)
  | assign (targets : List PyExpr) (value : PyExpr)
  | annAssign (target : PyExpr) (ann : PyExpr) (value : Option PyExpr)
  | importFrom (module : Option String) (names : List PyAlias) (level : Nat)
  | importStmt (names : List PyAlias)
  | exprStmt (e : PyExpr)
  | retStmt (e : Option PyExpr)
  | passStmt
deriving DecidableEq, Repr

/-- One physical line unit of a source file: blank, a comment line carrying
its text, or a statement (the statement occupies exactly one line unit in
this model; its source segment is the statement itself). -/
inductive Line where
  | blank
  | comment (text : String)
  | stmt (s : Stmt)
deriving DecidableEq, Repr

/-- A top-level statement paired with its (1-based) line number, i.e. a node
of `ast.parse(...).body` with its `lineno`. -/
structure PStmt where
  lineno : Nat
  stmt : Stmt
deriving DecidableEq, Repr

/-- Model of `ast.parse`: the top-level statements of a file with their line
numbers.  In the line model parsing is total (parse failures are outside the
scope of the embedding). -/
def parseLines (src : List Line) : List PStmt :=
  (src.enumFrom 1).filterMap fun p =>
    match p.2 with
    | Line.stmt s => some { lineno := p.1, stmt := s }
    | _ => none

/-- `ImportedSymbol` dataclass. -/
structure ImportedSymbol where
  module : String
  name : String
  asname : Option String
deriving DecidableEq, Repr

/-- `SymbolDef` dataclass.  The `source` field of the Python dataclass is the
node's source segment, which in the line model is the node itself, so it is
not duplicated here. -/
structure SymbolDef where
  name : String
  node : Stmt
  module : String
  lineno : Nat
deriving DecidableEq, Repr

/-- `BundleError` cases, carrying the data interpolated into the message.
`fuelExhausted` is a model artifact marking exhaustion of the explicit fuel
given to the Python `while` loops; the development proves it never occurs. -/
inductive BundleErr where
  | moduleNotFound (module : String) (searchedFile searchedInit : List String)
  | moduleNotFoundAbs (module : String)
  | symbolNotFound (module name : String)
  | unsupportedImportWhole
  | unsupportedImportStar
  | fuelExhausted
deriving DecidableEq, Repr

/-- The f-string identity used by `_toposort_symbols`:
`f"{s.module}:{s.name}:{s.lineno}"`. -/
def sidOf (s : SymbolDef) : String :=
  s.module ++ ":" ++ s.name ++ ":" ++ toString s.lineno

/-- String prefix test (`str.startswith`), written over the character lists
so that it evaluates by kernel reduction. -/
def strStartsWith (s pre : String) : Bool :=
  pre.data.isPrefixOf s.data

/-- Split a string at `.` separators (`str.split(".")`), written by direct
recursion so that it evaluates by kernel reduction. -/
def splitDotAux : List Char → List Char → List String
  | [], cur => [String.mk cur.reverse]
  | c :: rest, cur =>
      if c = '.' then String.mk cur.reverse :: splitDotAux rest []
      else splitDotAux rest (c :: cur)

/-- `module.split(".")`. -/
def splitDot (s : String) : List String :=
  splitDotAux s.data []

/-- `_is_lib_module`. -/
def isLibModule (module : Option String) : Bool :=
  match module with
  | none => false
  | some m => m == "lib" || strStartsWith m "lib."

/-! ## Reference extraction (`_name_loads_in`, `_definition_time_deps`) -/

/-- Identifier loads of an expression: the ids of `ast.Name` nodes in load
context anywhere in the subtree (the expression-level part of
`_name_loads_in`). -/
def exprLoads : PyExpr → List String
  | .ename id .load => [id]
  | .ename _ .store => []
  | .econst _ => []
  | .call f a => exprLoads f ++ exprLoads a
  | .binOp l r => exprLoads l ++ exprLoads r
  | .attr v _ => exprLoads v

/-- Loads of an optional expression. -/
def optLoads : Option PyExpr → List String
  | none => []
  | some e => exprLoads e

/-- Loads inside a formal parameter: only its annotation can contain names. -/
def argLoads (a : PyArg) : List String :=
  optLoads a.ann

/-- Loads inside an optional formal parameter. -/
def optArgLoads : Option PyArg → List String
  | none => []
  | some a => argLoads a

/-- Loads inside an `ast.arguments` subtree (annotations and defaults),
as collected by `ast.walk`. -/
def argsLoads (a : PyArgs) : List String :=
  (a.posonlyargs.map argLoads).flatten ++ (a.args.map argLoads).flatten ++
    (a.kwonlyargs.map argLoads).flatten ++ optArgLoads a.vararg ++ optArgLoads a.kwarg ++
    (a.defaults.map exprLoads).flatten ++
    (a.kw_defaults.map optLoads).flatten

/-- Loads inside a body statement. -/
def bstmtLoads : BStmt → List String
  | .bexpr e => exprLoads e
  | .bret e => optLoads e
  | .bassign targets value => (targets.map exprLoads).flatten ++ exprLoads value
  | .bpass => []

/-- `_name_loads_in` as a traversal list (with duplicates): every identifier
in load context anywhere inside the node, bodies included.  The Python
function returns these as a set; set views are taken downstream by
deduplication (`List.dedup`) wherever the set is consumed. -/
def stmtLoads : Stmt → List String
  | .functionDef _ dec args ret body =>
      (dec.map exprLoads).flatten ++ argsLoads args ++ optLoads ret ++
        (body.map bstmtLoads).flatten
  | .asyncFunctionDef _ dec args ret body =>
      (dec.map exprLoads).flatten ++ argsLoads args ++ optLoads ret ++
        (body.map bstmtLoads).flatten
  | .classDef _ dec bases kws body =>
      (dec.map exprLoads).flatten ++ (bases.map exprLoads).flatten ++
        (kws.map fun k => exprLoads k.value).flatten ++ (body.map bstmtLoads).flatten
  | .assign targets value => (targets.map exprLoads).flatten ++ exprLoads value
  | .annAssign target ann value =>
      exprLoads target ++ exprLoads ann ++ optLoads value
  | .importFrom _ _ _ => []
  | .importStmt _ => []
  | .exprStmt e => exprLoads e
  | .retStmt e => optLoads e
  | .passStmt => []

/-- The `context_nodes` list assembled by `_definition_time_deps`, flattened
at the keyword level (`_name_loads_in` of an `ast.keyword` node is the loads
of its value). -/
def contextNodes : Stmt → List PyExpr
  | .functionDef _ dec args ret _ =>
      dec ++ args.defaults ++ args.kw_defaults.filterMap id ++
        ((args.posonlyargs ++ args.args ++ args.kwonlyargs).filterMap fun a => a.ann) ++
        (args.vararg.bind fun a => a.ann).toList ++
        (args.kwarg.bind fun a => a.ann).toList ++
        ret.toList
  | .asyncFunctionDef _ dec args ret _ =>
      dec ++ args.defaults ++ args.kw_defaults.filterMap id ++
        ((args.posonlyargs ++ args.args ++ args.kwonlyargs).filterMap fun a => a.ann) ++
        (args.vararg.bind fun a => a.ann).toList ++
        (args.kwarg.bind fun a => a.ann).toList ++
        ret.toList
  | .classDef _ dec bases kws _ => dec ++ bases ++ kws.map fun k => k.value
  | .assign _ value => [value]
  | .annAssign _ ann value => [ann] ++ value.toList
  | _ => []

/-- `_definition_time_deps`: identifier loads of the definition-time
evaluated positions only, as a deduplicated list (the Python function
returns a set). -/
def definitionTimeDeps (s : Stmt) : List String :=
  ((contextNodes s).map exprLoads).flatten.dedup

/-! ## Dictionaries

Python dicts keyed by strings are modelled as association lists.
`dset` is dict assignment (`d[k] = v`, overwriting), `dsetdef` is
`d.setdefault(k, v)`, `dlookup` is lookup. -/

/-- Lookup in an association list (first binding wins). -/
def dlookup {α : Type} (d : List (String × α)) (k : String) : Option α :=
  match d with
  | [] => none
  | (k2, v) :: rest => if k2 = k then some v else dlookup rest k

/-- Dict assignment `d[k] = v`: replaces an existing binding in place, else
appends. -/
def dset {α : Type} (d : List (String × α)) (k : String) (v : α) : List (String × α) :=
  match d with
  | [] => [(k, v)]
  | (k2, v2) :: rest => if k2 = k then (k2, v) :: rest else (k2, v2) :: dset rest k v

/-- `d.setdefault(k, v)`: inserts only if the key is absent. -/
def dsetdef {α : Type} (d : List (String × α)) (k : String) (v : α) : List (String × α) :=
  match dlookup d k with
  | some _ => d
  | none => d ++ [(k, v)]

/-- Key membership in a dict. -/
def dmem {α : Type} (d : List (String × α)) (k : String) : Bool :=
  (dlookup d k).isSome

/-- First-defined choice between two optional values. -/
def firstSome {α : Type} (a b : Option α) : Option α :=
  match a with
  | some v => some v
  | none => b

/-! ## Symbol table builder (`_build_symbol_table`) -/

/-- One step of `_build_symbol_table`: how a single top-level statement
updates the table.  Function/class definitions assign (`table[name] = node`,
overwriting); assignments use `setdefault` per simple-name target. -/
def symbolTableStep (table : List (String × PStmt)) (p : PStmt) : List (String × PStmt) :=
  match p.stmt with
  | .functionDef n _ _ _ _ => dset table n p
  | .asyncFunctionDef n _ _ _ _ => dset table n p
  | .classDef n _ _ _ _ => dset table n p
  | .assign targets _ =>
      targets.foldl
        (fun t tgt =>
          match tgt with
          | .ename id _ => dsetdef t id p
          | _ => t)
        table
  | .annAssign target _ _ =>
      match target with
      | .ename id _ => dsetdef table id p
      | _ => table
  | _ => table

/-- `_build_symbol_table`: scan the top-level statements in order.  The table
value keeps the statement together with its line number (the Python table
stores the node; its `lineno` is recovered by `_extract_symbol_def`). -/
def buildSymbolTable (body : List PStmt) : List (String × PStmt) :=
  body.foldl symbolTableStep []

/-! ## Module resolution (`_resolve_module_path`)

A filesystem path is a list of components; the filesystem is the list of
paths that exist.  `Path.with_suffix(".py")` appends `.py` to the final
component (module-name components contain no dot, so there is no suffix to
replace). -/

/-- The direct-file candidate `root/a/b.py` for dotted name `a.b`. -/
def candidateFile (module : String) (root : List String) : List String :=
  let parts := splitDot module
  root ++ parts.dropLast ++ parts.getLast?.toList.map (fun c => c ++ ".py")

/-- The package-index candidate `root/a/b/__init__.py`. -/
def candidateInit (module : String) (root : List String) : List String :=
  root ++ splitDot module ++ ["__init__.py"]

/-- `_resolve_module_path`: try the direct file, then the package index file,
else fail carrying both searched paths (as interpolated into the Python
error message). -/
def resolveModulePath (module : String) (root : List String)
    (fs : List (List String)) : Except BundleErr (List String) :=
  let filePath := candidateFile module root
  if filePath ∈ fs then .ok filePath
  else
    let pkgInit := candidateInit module root
    if pkgInit ∈ fs then .ok pkgInit
    else .error (.moduleNotFound module filePath pkgInit)

/-! ## Import-line extraction and stripping -/

/-- `ModuleSource` record (path omitted: module loading is abstracted by a
name-to-contents map in the embedding). -/
structure ModuleSource where
  module : String
  source : List Line
  body : List PStmt
deriving DecidableEq, Repr

/-- `_extract_top_level_import_lines`: future-imports and other imports, as
statement nodes (their source segments in the line model). -/
def extractTopLevelImportLines (mod : ModuleSource) : List Stmt × List Stmt :=
  mod.body.foldl
    (fun acc p =>
      match p.stmt with
      | .importFrom m _ _ =>
          if m = some "__future__" then (acc.1 ++ [p.stmt], acc.2)
          else (acc.1, acc.2 ++ [p.stmt])
      | .importStmt _ => (acc.1, acc.2 ++ [p.stmt])
      | _ => acc)
    ([], [])

/-- Whether a top-level node is a symbol-level library import
(`ast.ImportFrom` on the library namespace at level 0), the form collected
by `_parse_imported_symbols` and removed by `_strip_lib_imports`. -/
def isLibImportFrom : Stmt → Bool
  | .importFrom m _ level => isLibModule m && level == 0
  | _ => false

/-- Whether a top-level node is a `__future__` import at level 0. -/
def isFutureImportFrom : Stmt → Bool
  | .importFrom m _ level => m == some "__future__" && level == 0
  | _ => false

/-- Whether a top-level node is a whole-module `import` statement naming the
library namespace (the rejected form). -/
def isLibWholeImport : Stmt → Bool
  | .importStmt names => names.any fun a => isLibModule (some a.name)
  | _ => false

/-- The scan phase of `_strip_lib_imports`: walk the top-level nodes in
order, collecting the line ranges of library and `__future__` from-imports
to remove, and raising `unsupported import form` on the first whole-module
library import. -/
def stripScan (body : List PStmt) : Except BundleErr (List (Nat × Nat)) :=
  match body with
  | [] => .ok []
  | p :: rest =>
      if isLibImportFrom p.stmt then
        (stripScan rest).map fun r => (p.lineno, p.lineno) :: r
      else if isFutureImportFrom p.stmt then
        (stripScan rest).map fun r => (p.lineno, p.lineno) :: r
      else
        match p.stmt with
        | .importStmt names =>
            if names.any fun a => isLibModule (some a.name) then
              .error .unsupportedImportWhole
            else stripScan rest
        | _ => stripScan rest

/-- `_strip_lib_imports`: remove the collected line ranges from the entry
text and strip leading blank lines (`"".join(kept).lstrip("\n")`). -/
def stripLibImports (entrySource : List Line) (body : List PStmt) :
    Except BundleErr (List Line) :=
  (stripScan body).map fun remove =>
    let toRemove : List Nat := remove.flatMap fun r => (List.range (r.2 + 1 - r.1)).map (· + r.1)
    let kept := (entrySource.enumFrom 1).filterMap fun p =>
      if p.1 ∈ toRemove then none else some p.2
    kept.dropWhile (· == Line.blank)

/-- One node of the `_parse_imported_symbols` scan. -/
def parseImportedStep (acc : List ImportedSymbol) (p : PStmt) :
    Except BundleErr (List ImportedSymbol) :=
  match p.stmt with
  | .importFrom m names level =>
      if isLibModule m && level == 0 then
        if names.any fun a => a.name == "*" then
          .error .unsupportedImportStar
        else
          .ok (acc ++ names.map fun a =>
            ImportedSymbol.mk (m.getD "") a.name a.asname)
      else .ok acc
  | _ => .ok acc

/-- `_parse_imported_symbols`: collect the `ImportedSymbol`s of the entry
file's symbol-level library imports, rejecting wildcard imports. -/
def parseImportedSymbols (body : List PStmt) : Except BundleErr (List ImportedSymbol) :=
  body.foldlM parseImportedStep []

/-! ## Stable topological sort (`_toposort_symbols`)

`deps` and `indeg` are dicts over the symbol ids; they are modelled as an
update function `String → List String` holding the dependency rows.  The
code keeps `indeg[sid]` equal to `len(deps[sid])` at all times (it
increments exactly when adding a new element to the row and decrements
exactly when removing one), so the row length stands for `indeg`.
Similarly `ready_set` is maintained as exactly the set of elements of
`ready`, so membership in `ready` stands for membership in `ready_set`. -/

instance : Inhabited SymbolDef := ⟨⟨"", Stmt.passStmt, "", 0⟩⟩

/-- Total dict lookup with a default, for the Python subscript `d[k]` at
call sites where the key is always present. -/
def dgetD {α : Type} [Inhabited α] (d : List (String × α)) (k : String) : α :=
  (dlookup d k).getD default

/-- Pointwise update of a dict modelled as a function. -/
def fupd {α : Type} (f : String → α) (k : String) (v : α) : String → α :=
  fun x => if x = k then v else f x

/-- The `by_id` dict of `_toposort_symbols`. -/
def byIdOf (symbols : List SymbolDef) : List (String × SymbolDef) :=
  symbols.foldl (fun d s => dset d (sidOf s) s) []

/-- The `order` list of `_toposort_symbols`. -/
def orderOf (symbols : List SymbolDef) : List String :=
  symbols.map sidOf

/-- The `name_to_first_id` dict of `_toposort_symbols` (`setdefault`:
the first-registered symbol id wins for each name). -/
def nameToFirstOf (symbols : List SymbolDef) : List (String × String) :=
  symbols.foldl (fun d s => dsetdef d s.name (sidOf s)) []

/-- One dependency-name step of the edge-construction loop: resolve the name
through `name_to_first_id`, skip unresolved names and self-edges, and add
the edge once. -/
def depRowStep (nameToFirst : List (String × String)) (sid : String)
    (row : List String) (depName : String) : List String :=
  match dlookup nameToFirst depName with
  | none => row
  | some depId => if depId = sid ∨ depId ∈ row then row else row ++ [depId]

/-- The full dependency row `deps[sid]` built for one symbol. -/
def depRow (nameToFirst : List (String × String)) (sid : String) (s : SymbolDef) :
    List String :=
  (definitionTimeDeps s.node).foldl (depRowStep nameToFirst sid) []

/-- The `deps` dict after the edge-construction loop. -/
def depsOf (symbols : List SymbolDef) : String → List String :=
  let byId := byIdOf symbols
  let ntf := nameToFirstOf symbols
  (orderOf symbols).foldl
    (fun f sid => fupd f sid (depRow ntf sid (dgetD byId sid)))
    (fun _ => [])

/-- State of the Kahn `while` loop. -/
structure KState where
  ready : List String
  out : List String
  deps : String → List String

/-- The body of the inner `for other in order` loop for one `other`:
remove the just-emitted `sid` from `other`'s row and append `other` to the
ready queue when its in-degree reaches zero and it is not already queued or
emitted. -/
def relaxOne (sid other : String) (st : KState) : KState :=
  if sid ∈ st.deps other then
    if ((st.deps other).erase sid).length = 0 ∧ other ∉ st.ready ∧ other ∉ st.out then
      { ready := st.ready ++ [other], out := st.out,
        deps := fupd st.deps other ((st.deps other).erase sid) }
    else
      { ready := st.ready, out := st.out,
        deps := fupd st.deps other ((st.deps other).erase sid) }
  else st

/-- The inner `for other in order` loop after emitting `sid`. -/
def kahnStep (order : List String) (sid : String) (st : KState) : KState :=
  order.foldl (fun s o => relaxOne sid o s) st

/-- The Kahn `while ready:` loop, with fuel (the loop provably performs at
most `2 * len(order)` iterations, see the termination lemmas). -/
def kahnRun (order : List String) : Nat → KState → List String
  | _, ⟨[], out, _⟩ => out
  | 0, ⟨_ :: _, out, _⟩ => out
  | fuel + 1, ⟨sid :: rest, out, deps⟩ =>
      kahnRun order fuel (kahnStep order sid ⟨rest, out ++ [sid], deps⟩)

/-- The `out` list produced by the Kahn loop for a symbol list. -/
def kahnOutOf (symbols : List SymbolDef) : List String :=
  let order := orderOf symbols
  let deps0 := depsOf symbols
  let ready0 := order.filter fun sid => (deps0 sid).length = 0
  kahnRun order (2 * order.length + 1) ⟨ready0, [], deps0⟩

/-- `_toposort_symbols`: build the graph, run the Kahn loop, and fall back
to the original order when not every node was emitted. -/
def topoSortSymbols (symbols : List SymbolDef) : List SymbolDef :=
  match symbols with
  | [] => []
  | _ :: _ =>
      let out := kahnOutOf symbols
      if out.length ≠ (orderOf symbols).length then symbols
      else out.map fun sid => dgetD (byIdOf symbols) sid

/-! ## Symbol closure (`bundle_file`, lines 314-361)

Module loading is abstracted by a finite map from dotted module names to
file contents (the composition of `_resolve_module_path` and `read_text`;
path-level resolution is verified separately on `resolveModulePath`).  The
`symbol_cache` dict is pure memoization of the deterministic
`_extract_symbol_def` and is semantically transparent, so it is not carried.

The iteration order in which Python enumerates the *set*
`_name_loads_in(sym.node)` before sorting it is unspecified; the closure is
therefore parameterized by an enumeration `loadsOrder` of that set, and the
development proves the result does not depend on the enumeration chosen
(claim C10). -/

/-- State of the closure `while queue:` loop, including the accumulated
module cache and the import lines collected as the side effect of first
loading each module. -/
structure ClosureState where
  queue : List ImportedSymbol
  included : List SymbolDef
  includedNames : List String
  aliases : List (String × String)
  cache : List String
  impFuture : List Stmt
  impOther : List Stmt
deriving DecidableEq, Repr

/-- Build the `ModuleSource` record for a module's file contents. -/
def mkModuleSource (name : String) (src : List Line) : ModuleSource :=
  ⟨name, src, parseLines src⟩

/-- `get_module`: look the module up (abstracting `_parse_module_source`),
and on a cache miss record it and collect its top-level import lines
exactly once. -/
def getModule (mods : List (String × List Line)) (st : ClosureState)
    (modname : String) : Except BundleErr (ModuleSource × ClosureState) :=
  match dlookup mods modname with
  | none => .error (.moduleNotFoundAbs modname)
  | some src =>
      let ms := mkModuleSource modname src
      if modname ∈ st.cache then .ok (ms, st)
      else
        let fo := extractTopLevelImportLines ms
        .ok (ms, { st with cache := st.cache ++ [modname],
                           impFuture := st.impFuture ++ fo.1,
                           impOther := st.impOther ++ fo.2 })

/-- `_extract_symbol_def` (the source segment is the node itself in the
line model, and the segment always exists). -/
def extractSymbolDef (mod : ModuleSource) (name : String) (p : PStmt) : SymbolDef :=
  ⟨name, p.stmt, mod.module, p.lineno⟩

/-- The `sorted(_name_loads_in(sym.node))` call: sort the set enumeration
lexicographically (Python `sorted` on strings). -/
def sortedLoadsP (loadsOrder : Stmt → List String) (s : Stmt) : List String :=
  (loadsOrder s).insertionSort (· ≤ ·)

/-- The include-or-skip step of one closure iteration: an already-included
name leaves the state untouched; a new one is appended to the included list
and its sorted in-table loads not yet included are enqueued from the same
module. -/
def includeStep (loadsOrder : Stmt → List String) (table : List (String × PStmt))
    (st1 : ClosureState) (item : ImportedSymbol) (sym : SymbolDef) : ClosureState :=
  if sym.name ∈ st1.includedNames then st1
  else
    let incNames := st1.includedNames ++ [sym.name]
    let deps := (sortedLoadsP loadsOrder sym.node).filter
      fun dep => dep ∉ incNames ∧ dmem table dep
    { st1 with included := st1.included ++ [sym],
               includedNames := incNames,
               queue := st1.queue ++ deps.map fun dep =>
                 ImportedSymbol.mk item.module dep none }

/-- The alias-recording step of one closure iteration (`item.asname and
item.asname != item.name`; a Python empty string is falsy). -/
def aliasStep (st2 : ClosureState) (item : ImportedSymbol) : ClosureState :=
  match item.asname with
  | some a =>
      if a ≠ "" ∧ a ≠ item.name then
        { st2 with aliases := st2.aliases ++ [(a, item.name)] }
      else st2
  | none => st2

/-- One iteration of the closure loop on the dequeued `item`, the queue
`rest` being what remains. -/
def closureBody (loadsOrder : Stmt → List String) (mods : List (String × List Line))
    (st : ClosureState) (item : ImportedSymbol) (rest : List ImportedSymbol) :
    Except BundleErr ClosureState := do
  let (mod, st1) ← getModule mods { st with queue := rest } item.module
  let table := buildSymbolTable mod.body
  match dlookup table item.name with
  | none => .error (.symbolNotFound item.module item.name)
  | some p =>
      .ok (aliasStep (includeStep loadsOrder table st1 item
        (extractSymbolDef mod item.name p)) item)

/-- The closure `while queue:` loop with fuel. -/
def closureLoop (loadsOrder : Stmt → List String) (mods : List (String × List Line)) :
    Nat → ClosureState → Except BundleErr ClosureState
  | fuel, st =>
      match st.queue with
      | [] => .ok st
      | item :: rest =>
          match fuel with
          | 0 => .error .fuelExhausted
          | fuel + 1 => (closureBody loadsOrder mods st item rest).bind
              (closureLoop loadsOrder mods fuel)

/-- All names defined in any module symbol table: the space of names the
closure can ever include. -/
def tableNamesOf (mods : List (String × List Line)) : List String :=
  (mods.map fun p => (buildSymbolTable (parseLines p.2)).map Prod.fst).flatten

/-- Fuel sufficient for the closure loop (proved sufficient below). -/
def closureFuel (mods : List (String × List Line)) (queue : List ImportedSymbol) : Nat :=
  (tableNamesOf mods).length * ((tableNamesOf mods).length + 1) + queue.length + 1

/-- The initial closure state seeded with the entry file's imports. -/
def initClosureState (imported : List ImportedSymbol) : ClosureState :=
  ⟨imported, [], [], [], [], [], []⟩

/-- The whole closure computation of `bundle_file`. -/
def runClosureP (loadsOrder : Stmt → List String) (mods : List (String × List Line))
    (imported : List ImportedSymbol) : Except BundleErr ClosureState :=
  closureLoop loadsOrder mods (closureFuel mods imported) (initClosureState imported)

/-! ## Emission (`bundle_file`, lines 363-432) -/

/-- Canonical rendering of an import statement (its source text in the line
model); non-import statements are never rendered by the bundler. -/
def renderAlias (a : PyAlias) : String :=
  match a.asname with
  | none => a.name
  | some asn => a.name ++ " as " ++ asn

/-- Render a statement to its one-line source text.  Only import statements
are ever rendered (for the commented entry-import block and for import
deduplication keys). -/
def renderStmt : Stmt → String
  | .importFrom m names level =>
      "from " ++ String.join (List.replicate level ".") ++ m.getD "" ++ " import " ++
        String.intercalate ", " (names.map renderAlias)
  | .importStmt names =>
      "import " ++ String.intercalate ", " (names.map renderAlias)
  | _ => "pass"

/-- `_comment_block` applied to a statement's source segment (one line in
the model, never whitespace-only). -/
def commentBlock (s : Stmt) : List Line :=
  [Line.comment ("# " ++ renderStmt s)]

/-- `_push_region`. -/
def pushRegion (lines : List Line) (name : String) : List Line :=
  lines ++ [Line.comment ("# region " ++ name)]

/-- `_pop_region`. -/
def popRegion (lines : List Line) : List Line :=
  lines ++ [Line.comment "# endregion"]

/-- `_dedup_keep_order`, keyed by the trimmed source text of each import
line (renders carry no surrounding whitespace, so the key is the render). -/
def dedupKeepOrder (items : List Stmt) : List Stmt :=
  (items.foldl
    (fun acc it =>
      let key := renderStmt it
      if key = "" ∨ key ∈ acc.1 then acc
      else (acc.1 ++ [key], acc.2 ++ [it]))
    (([], []) : List String × List Stmt)).2

/-- Emit the included symbols grouped into one region per originating
module, in order of each module's first symbol. -/
def emitSymbols (out0 : List Line) (included : List SymbolDef) : List Line :=
  let res := included.foldl
    (fun (acc : List Line × Option String) sym =>
      let acc2 :=
        if acc.2 ≠ some sym.module then
          let o1 := match acc.2 with
            | some _ => popRegion acc.1 ++ [Line.blank]
            | none => acc.1
          (pushRegion o1 sym.module, some sym.module)
        else acc
      (acc2.1 ++ [Line.stmt sym.node, Line.blank], acc2.2))
    ((out0, none) : List Line × Option String)
  match res.2 with
  | some _ => popRegion res.1 ++ [Line.blank]
  | none => res.1

/-- Strip trailing blank lines: the line-model image of
`"\n".join(out).rstrip() + "\n"` and of `stripped_entry.rstrip("\n")`. -/
def removeTrailingBlanks (l : List Line) : List Line :=
  (l.reverse.dropWhile (· == Line.blank)).reverse

/-- The emission phase of `bundle_file` (everything after the closure
loop): assemble the bundled-library lines, strip the entry file's library
imports, and append the main-logic region. -/
def emitBundle (entry : List Line) (entryBody : List PStmt) (stF : ClosureState) :
    Except BundleErr (List Line) :=
  let entryLibImports := (entryBody.filter fun p => isLibImportFrom p.stmt).map (·.stmt)
  let entryFutureImports := (entryBody.filter fun p => isFutureImportFrom p.stmt).map (·.stmt)
  let included := topoSortSymbols stF.included
  let futureImports := dedupKeepOrder (entryFutureImports ++ stF.impFuture)
  let otherImports := dedupKeepOrder stF.impOther
  let shebang : Option String :=
    match entry.head? with
    | some (Line.comment s) => if strStartsWith s "#!" then some s else none
    | _ => none
  let out0 : List Line :=
    match shebang with
    | some s => [Line.comment s]
    | none => []
  let out1 := out0 ++ (entryLibImports.map commentBlock).flatten ++ [Line.blank]
  let out2 :=
    if futureImports ≠ [] ∨ otherImports ≠ [] then
      popRegion (pushRegion out1 "Imports" ++ futureImports.map Line.stmt ++
        otherImports.map Line.stmt) ++ [Line.blank]
    else out1
  let out3 := emitSymbols out2 included
  let out4 :=
    if stF.aliases ≠ [] then
      popRegion (pushRegion out3 "Aliases" ++ stF.aliases.map fun a =>
        Line.stmt (Stmt.assign [PyExpr.ename a.1 Ctx.store] (PyExpr.ename a.2 Ctx.load))) ++
        [Line.blank]
    else out3
  let bundledLib := removeTrailingBlanks out4
  (stripLibImports entry entryBody).map fun strippedEntry0 =>
    let strippedEntry :=
      match shebang with
      | some _ =>
          match strippedEntry0 with
          | Line.comment s :: restL =>
              if strStartsWith s "#!" then restL.dropWhile (· == Line.blank)
              else strippedEntry0
          | _ => strippedEntry0
      | none => strippedEntry0
    let entryBodyLines := removeTrailingBlanks strippedEntry
    bundledLib ++ [Line.blank, Line.comment "# region main logic"] ++
      entryBodyLines ++ [Line.blank, Line.comment "# endregion"]

/-- `bundle_file`, parameterized by the set-enumeration order of
`_name_loads_in` results (see the closure section). -/
def bundleFileP (loadsOrder : Stmt → List String) (entry : List Line)
    (mods : List (String × List Line)) : Except BundleErr (List Line) :=
  (parseImportedSymbols (parseLines entry)).bind fun imported =>
    if imported.isEmpty then .ok entry
    else
      (runClosureP loadsOrder mods imported).bind fun stF =>
        emitBundle entry (parseLines entry) stF

/-- The canonical enumeration of the load-name set of a node. -/
def canonLoads (s : Stmt) : List String :=
  (stmtLoads s).dedup

/-- `bundle_file` with the canonical set enumeration. -/
def bundleFile (entry : List Line) (mods : List (String × List Line)) :
    Except BundleErr (List Line) :=
  bundleFileP canonLoads entry mods

/-! ## Specification-side predicates and invariants -/

/-- Whether a top-level statement is a function/async-function/class
definition declaring the name `n` (the overwriting branch of
`_build_symbol_table`). -/
def isDefOf (n : String) (p : PStmt) : Bool :=
  match p.stmt with
  | .functionDef m _ _ _ _ => m == n
  | .asyncFunctionDef m _ _ _ _ => m == n
  | .classDef m _ _ _ _ => m == n
  | _ => false

/-- Whether a top-level statement is an assignment form binding the name
`n`: a plain assignment with `n` among its simple-name targets, or an
annotated assignment whose target is the simple name `n` (the `setdefault`
branches of `_build_symbol_table`). -/
def isAssignBinding (n : String) (p : PStmt) : Bool :=
  match p.stmt with
  | .assign targets _ =>
      targets.any fun t =>
        match t with
        | .ename id _ => id == n
        | _ => false
  | .annAssign (.ename id _) _ _ => id == n
  | _ => false

/-- The symbol table of a module as reachable through the module map. -/
def tableOf (mods : List (String × List Line)) (m : String) : List (String × PStmt) :=
  match dlookup mods m with
  | some src => buildSymbolTable (parseLines src)
  | none => []

/-- Decreasing measure of the closure loop: names still includable weighted
by the maximal per-step queue growth, plus the queue length. -/
def closureMeasure (mods : List (String × List Line)) (st : ClosureState) : Nat :=
  ((tableNamesOf mods).length - st.includedNames.length) *
    ((tableNamesOf mods).length + 1) + st.queue.length

/-- Invariant of the closure loop: the included-name set mirrors the
included list, has no duplicates, stays inside the union of the module
symbol tables, and every in-table load of an included definition is either
already included or still queued from that definition's module. -/
def ClosureInv (mods : List (String × List Line)) (st : ClosureState) : Prop :=
  st.includedNames = st.included.map SymbolDef.name ∧
  st.includedNames.Nodup ∧
  (∀ n ∈ st.includedNames, n ∈ tableNamesOf mods) ∧
  (∀ s ∈ st.included, ∀ dep, dep ∈ stmtLoads s.node →
    dmem (tableOf mods s.module) dep = true →
    (dep ∈ st.includedNames ∨ ∃ it ∈ st.queue, it.module = s.module ∧ it.name = dep))

/-- Invariant of the Kahn loop relative to the original dependency rows. -/
structure KInv (order : List String) (origRow : String → List String) (st : KState) : Prop where
  rows : ∀ k ∈ order, ∀ d, d ∈ st.deps k ↔ (d ∈ origRow k ∧ d ∉ st.out)
  rowsNodup : ∀ k ∈ order, (st.deps k).Nodup
  readyRows : ∀ x ∈ st.ready, st.deps x = []
  readyNodup : st.ready.Nodup
  readyOut : ∀ x ∈ st.ready, x ∉ st.out
  readySub : ∀ x ∈ st.ready, x ∈ order
  outNodup : st.out.Nodup
  outSub : ∀ x ∈ st.out, x ∈ order
  ordered : ∀ k ∈ st.out, ∀ d ∈ origRow k, d ∈ st.out ∧ st.out.indexOf d < st.out.indexOf k

/-! ## Concrete instances used by witnesses and counterexamples -/

/-- Empty formal-parameter record. -/
def emptyArgs : PyArgs := ⟨[], [], [], none, none, [], []⟩

/-- A one-line assignment `n = v`. -/
def mkAssign (n : String) (v : Nat) : Stmt :=
  Stmt.assign [PyExpr.ename n Ctx.store] (PyExpr.econst v)

/-- Entry file consisting of the single statement `import lib.foo`. -/
def entryC3 : List Line := [Line.stmt (Stmt.importStmt [⟨"lib.foo", none⟩])]

/-- Entry file with a whole-module library import followed by unrelated
logic, and no symbol-level library import. -/
def entryC3W : List Line :=
  [Line.stmt (Stmt.importStmt [⟨"lib.foo", none⟩]), Line.stmt (mkAssign "x" 1)]

/-- Entry file with no library imports at all. -/
def entryNoop : List Line := [Line.comment "# hello", Line.stmt (mkAssign "x" 1)]

/-- First definition of `f` (line 1). -/
def defF1 : PStmt := ⟨1, Stmt.functionDef "f" [] emptyArgs none []⟩

/-- Second definition of `f` (line 2). -/
def defF2 : PStmt := ⟨2, Stmt.functionDef "f" [] emptyArgs none []⟩

/-- A multi-target assignment `a = b = 1` (line 3). -/
def assignAB : PStmt :=
  ⟨3, Stmt.assign [PyExpr.ename "a" Ctx.store, PyExpr.ename "b" Ctx.store] (PyExpr.econst 1)⟩

/-- Module body with a duplicate function name and a multi-target
assignment. -/
def bodyC2 : List PStmt := [defF1, defF2, assignAB]

/-- Two modules that each define the same top-level name `f`. -/
def modsC1 : List (String × List Line) :=
  [("lib.a", [Line.stmt (mkAssign "f" 1)]), ("lib.b", [Line.stmt (mkAssign "f" 2)])]

/-- Entry imports pulling `f` from both modules. -/
def importedC1 : List ImportedSymbol :=
  [⟨"lib.a", "f", none⟩, ⟨"lib.b", "f", none⟩]

/-- A helpers module whose function `foo` is decorated by the module-level
constant `BASE`. -/
def modsH : List (String × List Line) :=
  [("lib.helpers",
    [Line.stmt (mkAssign "BASE" 7),
     Line.stmt (Stmt.functionDef "foo" [PyExpr.ename "BASE" Ctx.load] emptyArgs none [])])]

/-- Entry imports for the helpers scenario. -/
def importedH : List ImportedSymbol := [⟨"lib.helpers", "foo", none⟩]

/-- Library whose module `lib.a` itself contains a top-level
library-namespace import. -/
def modsC5 : List (String × List Line) :=
  [("lib.a", [Line.stmt (Stmt.importFrom (some "lib.b") [⟨"g", none⟩] 0),
              Line.stmt (mkAssign "f" 1)]),
   ("lib.b", [Line.stmt (mkAssign "g" 2)])]

/-- Entry file `from lib.a import f` for the re-bundling scenario. -/
def entryC5 : List Line :=
  [Line.stmt (Stmt.importFrom (some "lib.a") [⟨"f", none⟩] 0)]

/-- Clean single-module library (no imports of its own). -/
def modsW : List (String × List Line) := [("lib.a", [Line.stmt (mkAssign "f" 1)])]

/-- Entry file `from lib.a import f` for the clean scenario. -/
def entryW : List Line :=
  [Line.stmt (Stmt.importFrom (some "lib.a") [⟨"f", none⟩] 0)]

/-- Symbol definition of the constant `BASE`. -/
def symBase : SymbolDef := ⟨"BASE", mkAssign "BASE" 7, "lib.h", 1⟩

/-- Symbol definition of `foo`, whose decorator references `BASE`. -/
def symFoo : SymbolDef :=
  ⟨"foo", Stmt.functionDef "foo" [PyExpr.ename "BASE" Ctx.load] emptyArgs none [], "lib.h", 2⟩

/-- Included symbols in discovery order: `foo` first, its dependency
`BASE` second. -/
def symsC4 : List SymbolDef := [symFoo, symBase]

/-- A filesystem containing only `lib/math/comb.py`. -/
def fsC9 : List (List String) := [["lib", "math", "comb.py"]]

/-- The bundled output of `entryC5` over `modsC5`: it carries the
`from lib.b import g` line of `lib.a` verbatim in its Imports region. -/
def outC5 : List Line :=
  [Line.comment "# from lib.a import f",
   Line.blank,
   Line.comment "# region Imports",
   Line.stmt (Stmt.importFrom (some "lib.b") [⟨"g", none⟩] 0),
   Line.comment "# endregion",
   Line.blank,
   Line.comment "# region lib.a",
   Line.stmt (mkAssign "f" 1),
   Line.blank,
   Line.comment "# endregion",
   Line.blank,
   Line.comment "# region main logic",
   Line.blank,
   Line.comment "# endregion"]

/-- The output of re-bundling `outC5`: the propagated `from lib.b import g`
line triggers a full second bundling pass, yielding a different text. -/
def outC5b : List Line :=
  [Line.comment "# from lib.b import g",
   Line.blank,
   Line.comment "# region lib.b",
   Line.stmt (mkAssign "g" 2),
   Line.blank,
   Line.comment "# endregion",
   Line.blank,
   Line.comment "# region main logic",
   Line.comment "# from lib.a import f",
   Line.blank,
   Line.comment "# region Imports",
   Line.comment "# endregion",
   Line.blank,
   Line.comment "# region lib.a",
   Line.stmt (mkAssign "f" 1),
   Line.blank,
   Line.comment "# endregion",
   Line.blank,
   Line.comment "# region main logic",
   Line.blank,
   Line.comment "# endregion",
   Line.blank,
   Line.comment "# endregion"]

/-- The bundled output of `entryW` over `modsW`: no library imports
remain. -/
def outW : List Line :=
  [Line.comment "# from lib.a import f",
   Line.blank,
   Line.comment "# region lib.a",
   Line.stmt (mkAssign "f" 1),
   Line.blank,
   Line.comment "# endregion",
   Line.blank,
   Line.comment "# region main logic",
   Line.blank,
   Line.comment "# endregion"]

/-- The symbol definition of `foo` as materialized from `modsH`. -/
def symFooH : SymbolDef :=
  ⟨"foo", Stmt.functionDef "foo" [PyExpr.ename "BASE" Ctx.load] emptyArgs none [],
   "lib.helpers", 2⟩

/-- The symbol definition of `BASE` as materialized from `modsH`. -/
def symBaseH : SymbolDef := ⟨"BASE", mkAssign "BASE" 7, "lib.helpers", 1⟩

/-- The final closure state of the helpers scenario. -/
def stH : ClosureState :=
  ⟨[], [symFooH, symBaseH], ["foo", "BASE"], [], ["lib.helpers"], [], []⟩

/-- The final closure state of the duplicate-name scenario: only the
`lib.a` copy of `f` is included. -/
def stC1 : ClosureState :=
  ⟨[], [⟨"f", mkAssign "f" 1, "lib.a", 1⟩], ["f"], [], ["lib.a", "lib.b"], [], []⟩

/-! ## Dictionary lemmas -/

theorem dlookup_dset_self {α : Type} (d : List (String × α)) (k : String) (v : α) :
    dlookup (dset d k v) k = some v := by
  induction d with
  | nil => simp [dset, dlookup]
  | cons hd tl ih =>
      obtain ⟨k2, v2⟩ := hd
      by_cases h : k2 = k
      · simp [dset, dlookup, h]
      · simp [dset, dlookup, h, ih]

theorem dlookup_dset_ne {α : Type} (d : List (String × α)) (k k2 : String) (v : α)
    (h : k2 ≠ k) : dlookup (dset d k v) k2 = dlookup d k2 := by
  have hk : ¬ (k = k2) := fun hx => h hx.symm
  induction d with
  | nil => simp [dset, dlookup, hk]
  | cons hd tl ih =>
      obtain ⟨k3, v3⟩ := hd
      by_cases h3 : k3 = k
      · simp [dset, dlookup, h3, hk]
      · by_cases h4 : k3 = k2 <;> simp [dset, dlookup, h3, h4, ih, h]

theorem dlookup_append {α : Type} (d1 d2 : List (String × α)) (k : String) :
    dlookup (d1 ++ d2) k = firstSome (dlookup d1 k) (dlookup d2 k) := by
  induction d1 with
  | nil => simp [dlookup, firstSome]
  | cons hd tl ih =>
      obtain ⟨k2, v2⟩ := hd
      by_cases h : k2 = k <;> simp [dlookup, h, ih, firstSome]

theorem dlookup_dsetdef_self {α : Type} (d : List (String × α)) (k : String) (v : α) :
    dlookup (dsetdef d k v) k = firstSome (dlookup d k) (some v) := by
  unfold dsetdef
  cases h : dlookup d k with
  | some w => simp [firstSome, h]
  | none => simp [dlookup_append, h, firstSome, dlookup]

theorem dlookup_dsetdef_ne {α : Type} (d : List (String × α)) (k k2 : String) (v : α)
    (h : k2 ≠ k) : dlookup (dsetdef d k v) k2 = dlookup d k2 := by
  have hk : ¬ (k = k2) := fun hx => h hx.symm
  unfold dsetdef
  cases hh : dlookup d k with
  | some w => rfl
  | none =>
      rw [dlookup_append]
      cases hx : dlookup d k2 <;> simp [firstSome, dlookup, hk]

theorem dlookup_mem {α : Type} {d : List (String × α)} {k : String} {v : α}
    (h : dlookup d k = some v) : (k, v) ∈ d := by
  induction d with
  | nil => simp [dlookup] at h
  | cons hd tl ih =>
      obtain ⟨k2, v2⟩ := hd
      by_cases h2 : k2 = k
      · subst h2
        simp [dlookup] at h
        simp [h]
      · simp [dlookup, h2] at h
        simp [ih h]

/-! ## The no-op path (claims C6, C5 amended, C3) -/

/-- If the entry file has no symbol-level library import, the import scan
collects nothing (and in particular cannot hit the wildcard rejection). -/
theorem parseImportedStep_skip {acc : List ImportedSymbol} {p : PStmt}
    (h : isLibImportFrom p.stmt = false) : parseImportedStep acc p = .ok acc := by
  unfold parseImportedStep
  cases hs : p.stmt with
  | importFrom m names level =>
      have : (isLibModule m && level == 0) = false := by
        simpa [isLibImportFrom, hs] using h
      simp [this]
  | functionDef n d a r b => rfl
  | asyncFunctionDef n d a r b => rfl
  | classDef n d bs kw b => rfl
  | assign t v => rfl
  | annAssign t an v => rfl
  | importStmt names => rfl
  | exprStmt e => rfl
  | retStmt e => rfl
  | passStmt => rfl

theorem parseImportedSymbols_nil {body : List PStmt}
    (h : ∀ p ∈ body, isLibImportFrom p.stmt = false) :
    parseImportedSymbols body = .ok [] := by
  have general : ∀ (l : List PStmt), (∀ p ∈ l, isLibImportFrom p.stmt = false) →
      ∀ (acc : List ImportedSymbol), l.foldlM parseImportedStep acc = .ok acc := by
    intro l
    induction l with
    | nil => intro _ acc; rfl
    | cons p rest ih =>
        intro hl acc
        have hrest : ∀ q ∈ rest, isLibImportFrom q.stmt = false := by
          intro q hq; exact hl q (by simp [hq])
        rw [List.foldlM_cons, parseImportedStep_skip (hl p (by simp))]
        simpa using ih hrest acc
  exact general body h []

/-- Shared no-op lemma: with no symbol-level library import in the parsed
entry, `bundle_file` returns the entry text unchanged. -/
theorem bundleFileP_noop (lo : Stmt → List String) (entry : List Line)
    (mods : List (String × List Line))
    (h : ∀ p ∈ parseLines entry, isLibImportFrom p.stmt = false) :
    bundleFileP lo entry mods = .ok entry := by
  unfold bundleFileP
  rw [parseImportedSymbols_nil h]
  rfl

/-- C6: for every entry file that parses and contains zero library-namespace
from-imports, the bundler returns the entry text unchanged, byte for byte.
(In the line model, the original `List Line` is returned as-is.) -/
theorem claim_C6_noop_law (entry : List Line) (mods : List (String × List Line))
    (h : ∀ p ∈ parseLines entry, isLibImportFrom p.stmt = false) :
    bundleFile entry mods = .ok entry :=
  bundleFileP_noop canonLoads entry mods h

theorem claim_C6_noop_law_witness :
    (∀ p ∈ parseLines entryNoop, isLibImportFrom p.stmt = false) ∧
    bundleFile entryNoop [] = .ok entryNoop :=
  ⟨by decide, claim_C6_noop_law entryNoop [] (by decide)⟩

/-- A symbol-level library from-import node is never a whole-module import
node. -/
theorem not_whole_of_from {s : Stmt} (h1 : isLibImportFrom s = true)
    (h2 : isLibWholeImport s = true) : False := by
  cases s <;> simp [isLibImportFrom, isLibWholeImport] at h1 h2

/-- A `__future__` from-import node is never a whole-module import node. -/
theorem not_whole_of_future {s : Stmt} (h1 : isFutureImportFrom s = true)
    (h2 : isLibWholeImport s = true) : False := by
  cases s <;> simp [isFutureImportFrom, isLibWholeImport] at h1 h2

/-- Whenever the entry body contains a whole-module library import, the
import-stripping scan raises the unsupported-import error. -/
theorem stripScan_error {body : List PStmt}
    (h : ∃ p ∈ body, isLibWholeImport p.stmt = true) :
    stripScan body = .error .unsupportedImportWhole := by
  induction body with
  | nil => simp at h
  | cons p rest ih =>
      obtain ⟨q, hq, hqw⟩ := h
      unfold stripScan
      by_cases h1 : isLibImportFrom p.stmt = true
      · have hq' : q ∈ rest := by
          rcases List.mem_cons.mp hq with he | he
          · exact absurd hqw (by rw [he]; intro hw; exact not_whole_of_from h1 hw)
          · exact he
        rw [if_pos h1, ih ⟨q, hq', hqw⟩]
        rfl
      · rw [if_neg h1]
        by_cases h2 : isFutureImportFrom p.stmt = true
        · have hq' : q ∈ rest := by
            rcases List.mem_cons.mp hq with he | he
            · exact absurd hqw (by rw [he]; intro hw; exact not_whole_of_future h2 hw)
            · exact he
          rw [if_pos h2, ih ⟨q, hq', hqw⟩]
          rfl
        · rw [if_neg h2]
          have tail : ∀ (hq2 : q ∈ rest), stripScan rest = .error .unsupportedImportWhole :=
            fun hq2 => ih ⟨q, hq2, hqw⟩
          rcases List.mem_cons.mp hq with he | he
          · subst he
            cases hs : q.stmt with
            | importStmt names =>
                have : (names.any fun a => isLibModule (some a.name)) = true := by
                  simpa [isLibWholeImport, hs] using hqw
                simp [this]
            | importFrom m names level =>
                exfalso
                simp [isLibWholeImport, hs] at hqw
            | functionDef n d a r b => exfalso; simp [isLibWholeImport, hs] at hqw
            | asyncFunctionDef n d a r b => exfalso; simp [isLibWholeImport, hs] at hqw
            | classDef n d bs kw b => exfalso; simp [isLibWholeImport, hs] at hqw
            | assign t v => exfalso; simp [isLibWholeImport, hs] at hqw
            | annAssign t an v => exfalso; simp [isLibWholeImport, hs] at hqw
            | exprStmt e => exfalso; simp [isLibWholeImport, hs] at hqw
            | retStmt e => exfalso; simp [isLibWholeImport, hs] at hqw
            | passStmt => exfalso; simp [isLibWholeImport, hs] at hqw
          · cases hs : p.stmt with
            | importStmt names =>
                by_cases h3 : (names.any fun a => isLibModule (some a.name)) = true
                · simp [h3]
                · simp [h3, tail he]
            | importFrom m names level => simp [tail he]
            | functionDef n d a r b => simp [tail he]
            | asyncFunctionDef n d a r b => simp [tail he]
            | classDef n d bs kw b => simp [tail he]
            | assign t v => simp [tail he]
            | annAssign t an v => simp [tail he]
            | exprStmt e => simp [tail he]
            | retStmt e => simp [tail he]
            | passStmt => simp [tail he]

/-- If the stripping scan rejects the entry, the whole emission phase
rejects it with the same error. -/
theorem emitBundle_error {entry : List Line} {entryBody : List PStmt}
    (stF : ClosureState)
    (h : stripScan entryBody = .error .unsupportedImportWhole) :
    emitBundle entry entryBody stF = .error .unsupportedImportWhole := by
  unfold emitBundle stripLibImports
  rw [h]
  rfl

/-- C3 counterexample: an entry file whose only library reference is the
whole-module import `import lib.foo` is NOT rejected — bundling succeeds
and returns the entry text unchanged, because the whole-module check lives
in `_strip_lib_imports`, which runs only after the early no-import return. -/
theorem claim_C3_counterexample :
    ((parseLines entryC3).any fun p => isLibWholeImport p.stmt) = true ∧
    bundleFile entryC3 [] = .ok entryC3 :=
  ⟨rfl, rfl⟩

/-- C3 (amended): an entry containing a whole-module library import is
rejected with the unsupported-import error only when bundling reaches the
import-stripping step, which requires at least one symbol-level
`from lib... import` statement; when the entry contains no symbol-level
library import, bundling returns the entry text unchanged instead.  The
stripping scan itself (and hence the emission phase) always rejects such an
entry. -/
theorem claim_C3_amended (entry : List Line) (mods : List (String × List Line))
    (h : ∃ p ∈ parseLines entry, isLibWholeImport p.stmt = true) :
    ((∀ p ∈ parseLines entry, isLibImportFrom p.stmt = false) →
      bundleFile entry mods = .ok entry) ∧
    (∀ stF : ClosureState,
      emitBundle entry (parseLines entry) stF = .error .unsupportedImportWhole) :=
  ⟨fun hno => bundleFileP_noop canonLoads entry mods hno,
   fun stF => emitBundle_error stF (stripScan_error h)⟩

theorem claim_C3_amended_witness :
    bundleFile entryC3W [] = .ok entryC3W ∧
    emitBundle entryC3W (parseLines entryC3W) (initClosureState []) =
      .error .unsupportedImportWhole :=
  ⟨(claim_C3_amended entryC3W [] (by decide)).1 (by decide),
   (claim_C3_amended entryC3W [] (by decide)).2 (initClosureState [])⟩

/-! ## Symbol table characterization (claim C2) -/

theorem firstSome_absorb {α : Type} (a : Option α) (v : α) (c : Option α) :
    firstSome (firstSome a (some v)) c = firstSome a (some v) := by
  cases a <;> rfl

theorem getLast?_cons_eq {α : Type} (p : α) (l : List α) :
    (p :: l).getLast? = firstSome l.getLast? (some p) := by
  induction l generalizing p with
  | nil => rfl
  | cons q rest ih =>
      rw [List.getLast?_cons_cons, ih q]
      cases hx : rest.getLast? <;> simp [firstSome, ih, hx]

/-- Effect of the per-target `setdefault` fold of the `ast.Assign` branch
on a single key. -/
theorem assignFold_lookup (targets : List PyExpr) (p : PStmt)
    (acc : List (String × PStmt)) (n : String) :
    dlookup
      (targets.foldl
        (fun t tgt =>
          match tgt with
          | .ename id _ => dsetdef t id p
          | _ => t)
        acc) n =
    if targets.any (fun t =>
        match t with
        | .ename id _ => id == n
        | _ => false) then
      firstSome (dlookup acc n) (some p)
    else dlookup acc n := by
  induction targets generalizing acc with
  | nil => simp
  | cons t rest ih =>
      cases t with
      | ename id ctx =>
          by_cases hid : id = n
          · subst hid
            rw [List.foldl_cons, List.any_cons]
            simp only [beq_self_eq_true, Bool.true_or, if_pos]
            rw [ih (dsetdef acc id p)]
            by_cases hr : rest.any (fun t =>
                match t with
                | .ename id2 _ => id2 == id
                | _ => false) = true
            · rw [if_pos hr, dlookup_dsetdef_self, firstSome_absorb]
            · rw [if_neg hr, dlookup_dsetdef_self]
          · rw [List.foldl_cons, List.any_cons]
            have : (match PyExpr.ename id ctx with
                | .ename id2 _ => id2 == n
                | _ => false) = false := by simp [hid]
            rw [this, Bool.false_or, ih (dsetdef acc id p),
              dlookup_dsetdef_ne acc id n p (fun hx => hid hx.symm)]
      | econst v => simpa using ih acc
      | call f a => simpa using ih acc
      | binOp l r => simpa using ih acc
      | attr v f => simpa using ih acc

/-- Effect of one `_build_symbol_table` step on a single key: definitions
overwrite, assignment forms insert only if absent, anything else is
inert. -/
theorem symbolTableStep_lookup (acc : List (String × PStmt)) (p : PStmt) (n : String) :
    dlookup (symbolTableStep acc p) n =
      if isDefOf n p then some p
      else if isAssignBinding n p then firstSome (dlookup acc n) (some p)
      else dlookup acc n := by
  cases hs : p.stmt with
  | functionDef m d a r b =>
      by_cases hm : m = n
      · subst hm
        simp [symbolTableStep, hs, isDefOf, isAssignBinding, dlookup_dset_self]
      · simp [symbolTableStep, hs, isDefOf, isAssignBinding, hm,
          dlookup_dset_ne acc m n p (fun hx => hm hx.symm)]
  | asyncFunctionDef m d a r b =>
      by_cases hm : m = n
      · subst hm
        simp [symbolTableStep, hs, isDefOf, isAssignBinding, dlookup_dset_self]
      · simp [symbolTableStep, hs, isDefOf, isAssignBinding, hm,
          dlookup_dset_ne acc m n p (fun hx => hm hx.symm)]
  | classDef m d bs kw b =>
      by_cases hm : m = n
      · subst hm
        simp [symbolTableStep, hs, isDefOf, isAssignBinding, dlookup_dset_self]
      · simp [symbolTableStep, hs, isDefOf, isAssignBinding, hm,
          dlookup_dset_ne acc m n p (fun hx => hm hx.symm)]
  | assign targets v =>
      simp only [symbolTableStep, hs, isDefOf, isAssignBinding]
      rw [assignFold_lookup targets p acc n]
      simp
  | annAssign target an v =>
      cases target with
      | ename id ctx =>
          by_cases hid : id = n
          · subst hid
            simp [symbolTableStep, hs, isDefOf, isAssignBinding, dlookup_dsetdef_self]
          · simp [symbolTableStep, hs, isDefOf, isAssignBinding, hid,
              dlookup_dsetdef_ne acc id n p (fun hx => hid hx.symm)]
      | econst w => simp [symbolTableStep, hs, isDefOf, isAssignBinding]
      | call f a => simp [symbolTableStep, hs, isDefOf, isAssignBinding]
      | binOp l r => simp [symbolTableStep, hs, isDefOf, isAssignBinding]
      | attr vv f => simp [symbolTableStep, hs, isDefOf, isAssignBinding]
  | importFrom m names level => simp [symbolTableStep, hs, isDefOf, isAssignBinding]
  | importStmt names => simp [symbolTableStep, hs, isDefOf, isAssignBinding]
  | exprStmt e => simp [symbolTableStep, hs, isDefOf, isAssignBinding]
  | retStmt e => simp [symbolTableStep, hs, isDefOf, isAssignBinding]
  | passStmt => simp [symbolTableStep, hs, isDefOf, isAssignBinding]

/-- Generalized fold characterization of the symbol table. -/
theorem buildSymbolTable_go (body : List PStmt) (acc : List (String × PStmt)) (n : String) :
    dlookup (body.foldl symbolTableStep acc) n =
      firstSome ((body.filter (isDefOf n)).getLast?)
        (firstSome (dlookup acc n) ((body.filter (isAssignBinding n)).head?)) := by
  induction body generalizing acc with
  | nil => cases hx : dlookup acc n <;> simp [firstSome, hx]
  | cons p rest ih =>
      rw [List.foldl_cons, ih (symbolTableStep acc p), symbolTableStep_lookup acc p n]
      by_cases hd : isDefOf n p = true
      · have hab : isAssignBinding n p = false := by
          cases hs : p.stmt <;> simp [isDefOf, hs, isAssignBinding] at hd ⊢
        rw [if_pos hd]
        have hf : (p :: rest).filter (isDefOf n) = p :: rest.filter (isDefOf n) :=
          List.filter_cons_of_pos hd
        have hf2 : (p :: rest).filter (isAssignBinding n) =
            rest.filter (isAssignBinding n) := List.filter_cons_of_neg (by simp [hab])
        rw [hf, hf2, getLast?_cons_eq]
        cases hx : (rest.filter (isDefOf n)).getLast? <;> simp [firstSome, hx]
      · rw [if_neg hd]
        have hf : (p :: rest).filter (isDefOf n) = rest.filter (isDefOf n) :=
          List.filter_cons_of_neg (by simp [hd])
        by_cases hab : isAssignBinding n p = true
        · rw [if_pos hab, hf]
          have hf2 : (p :: rest).filter (isAssignBinding n) =
              p :: rest.filter (isAssignBinding n) := List.filter_cons_of_pos hab
          rw [hf2]
          cases hx : (rest.filter (isDefOf n)).getLast? <;>
            cases hy : dlookup acc n <;> simp [firstSome, hx, hy]
        · rw [if_neg hab, hf]
          have hf2 : (p :: rest).filter (isAssignBinding n) =
              rest.filter (isAssignBinding n) := List.filter_cons_of_neg (by simp [hab])
          rw [hf2]

/-- C2 (amended): the symbol table maps a name to the LAST top-level
function/async-function/class definition of that name when one exists
(later definitions overwrite earlier ones); otherwise to the first
assignment form binding it (plain assignments register every simple-name
target among their targets; annotated assignments a simple target), with
first-write-wins among assignment forms only. -/
theorem claim_C2_amended (body : List PStmt) (n : String) :
    dlookup (buildSymbolTable body) n =
      firstSome ((body.filter (isDefOf n)).getLast?)
        ((body.filter (isAssignBinding n)).head?) := by
  rw [buildSymbolTable, buildSymbolTable_go body [] n]
  rfl

/-- C2 counterexample: with two top-level definitions of `f`, the table maps
`f` to the SECOND (line 2) definition, not the first — the claimed
first-definition-wins rule fails for definition statements.  The same table
also registers both targets of the multi-target assignment `a = b = 1`,
which the claim's single-simple-target reading excludes. -/
theorem claim_C2_counterexample :
    dlookup (buildSymbolTable bodyC2) "f" = some defF2 ∧ defF2 ≠ defF1 ∧
    dlookup (buildSymbolTable bodyC2) "a" = some assignAB ∧
    dlookup (buildSymbolTable bodyC2) "b" = some assignAB := by
  refine ⟨rfl, ?_, rfl, rfl⟩
  decide

/-! ## Module resolution (claim C9) -/

/-- C9: resolution returns the direct file `root/a/b.py` when it exists,
else the package index `root/a/b/__init__.py` when that exists, and fails
if and only if neither exists — with the error carrying exactly the two
candidate paths tried (the data of the Python message); moreover every
resolution error is of that form. -/
theorem claim_C9_module_resolution (module : String) (root : List String)
    (fs : List (List String)) :
    (candidateFile module root ∈ fs →
      resolveModulePath module root fs = .ok (candidateFile module root)) ∧
    (candidateFile module root ∉ fs → candidateInit module root ∈ fs →
      resolveModulePath module root fs = .ok (candidateInit module root)) ∧
    (resolveModulePath module root fs =
        .error (.moduleNotFound module (candidateFile module root)
          (candidateInit module root)) ↔
      (candidateFile module root ∉ fs ∧ candidateInit module root ∉ fs)) ∧
    (∀ e, resolveModulePath module root fs = .error e →
      e = .moduleNotFound module (candidateFile module root) (candidateInit module root)) := by
  unfold resolveModulePath
  by_cases h1 : candidateFile module root ∈ fs
  · simp [h1]
  · by_cases h2 : candidateInit module root ∈ fs <;> simp [h1, h2]

theorem claim_C9_module_resolution_witness :
    resolveModulePath "math.comb" ["lib"] fsC9 = .ok ["lib", "math", "comb.py"] ∧
    resolveModulePath "math.comb" ["lib"] [] =
      .error (.moduleNotFound "math.comb" ["lib", "math", "comb.py"]
        ["lib", "math", "comb", "__init__.py"]) :=
  ⟨(claim_C9_module_resolution "math.comb" ["lib"] fsC9).1 (by decide),
   (claim_C9_module_resolution "math.comb" ["lib"] []).2.2.1.mpr ⟨by decide, by decide⟩⟩

/-! ## Definition-time dependency extraction (claim C7) -/

/-- Membership in the definition-time dependency set is membership in some
context node's loads. -/
theorem mem_definitionTimeDeps {n : String} {s : Stmt} :
    n ∈ definitionTimeDeps s ↔ ∃ e ∈ contextNodes s, n ∈ exprLoads e := by
  simp [definitionTimeDeps, List.mem_dedup, List.mem_flatten]

/-- Membership in the loads of an optional expression. -/
theorem mem_optLoads {n : String} {o : Option PyExpr} :
    n ∈ optLoads o ↔ ∃ e, o = some e ∧ n ∈ exprLoads e := by
  cases o <;> simp [optLoads]

/-- C7: `_definition_time_deps` returns exactly the names loaded in
definition-time-evaluated positions — for functions: decorators, parameter
defaults, parameter and return annotations; for classes: decorators, bases,
header keyword arguments; for assignments: the right-hand side, plus the
annotation for annotated assignments — and is independent of the body, so
a name loaded only inside a function or class body never contributes an
ordering edge. -/
theorem claim_C7_definition_time_deps :
    (∀ (nm : String) (dec : List PyExpr) (args : PyArgs) (ret : Option PyExpr)
        (body : List BStmt) (n : String),
      n ∈ definitionTimeDeps (.functionDef nm dec args ret body) ↔
        ((∃ e ∈ dec, n ∈ exprLoads e) ∨
         (∃ e ∈ args.defaults, n ∈ exprLoads e) ∨
         (∃ e ∈ args.kw_defaults.filterMap id, n ∈ exprLoads e) ∨
         (∃ e ∈ (args.posonlyargs ++ args.args ++ args.kwonlyargs).filterMap
            (fun a => a.ann), n ∈ exprLoads e) ∨
         n ∈ optLoads (args.vararg.bind fun a => a.ann) ∨
         n ∈ optLoads (args.kwarg.bind fun a => a.ann) ∨
         n ∈ optLoads ret)) ∧
    (∀ (nm : String) (dec : List PyExpr) (args : PyArgs) (ret : Option PyExpr)
        (body : List BStmt),
      definitionTimeDeps (.asyncFunctionDef nm dec args ret body) =
        definitionTimeDeps (.functionDef nm dec args ret body)) ∧
    (∀ (nm : String) (dec : List PyExpr) (bases : List PyExpr)
        (kws : List PyKeyword) (body : List BStmt) (n : String),
      n ∈ definitionTimeDeps (.classDef nm dec bases kws body) ↔
        ((∃ e ∈ dec, n ∈ exprLoads e) ∨ (∃ e ∈ bases, n ∈ exprLoads e) ∨
         (∃ k ∈ kws, n ∈ exprLoads k.value))) ∧
    (∀ (targets : List PyExpr) (value : PyExpr) (n : String),
      n ∈ definitionTimeDeps (.assign targets value) ↔ n ∈ exprLoads value) ∧
    (∀ (target ann : PyExpr) (value : Option PyExpr) (n : String),
      n ∈ definitionTimeDeps (.annAssign target ann value) ↔
        (n ∈ exprLoads ann ∨ ∃ e, value = some e ∧ n ∈ exprLoads e)) ∧
    (∀ (nm : String) (dec : List PyExpr) (args : PyArgs) (ret : Option PyExpr)
        (body : List BStmt),
      definitionTimeDeps (.functionDef nm dec args ret body) =
        definitionTimeDeps (.functionDef nm dec args ret [])) ∧
    (∀ (nm : String) (dec : List PyExpr) (bases : List PyExpr)
        (kws : List PyKeyword) (body : List BStmt),
      definitionTimeDeps (.classDef nm dec bases kws body) =
        definitionTimeDeps (.classDef nm dec bases kws [])) := by
  refine ⟨?_, ?_, ?_, ?_, ?_, ?_, ?_⟩
  · intro nm dec args ret body n
    rw [mem_definitionTimeDeps]
    simp [contextNodes, mem_optLoads, List.mem_append, or_assoc, or_and_right,
      exists_or]
  · intro nm dec args ret body
    rfl
  · intro nm dec bases kws body n
    rw [mem_definitionTimeDeps]
    simp [contextNodes, List.mem_append, or_assoc]
    constructor
    · rintro ⟨e, he, hn⟩
      rcases he with he | he | ⟨a, ha, rfl⟩
      · exact Or.inl ⟨e, he, hn⟩
      · exact Or.inr (Or.inl ⟨e, he, hn⟩)
      · exact Or.inr (Or.inr ⟨a, ha, hn⟩)
    · rintro (⟨e, he, hn⟩ | ⟨e, he, hn⟩ | ⟨k, hk, hn⟩)
      · exact ⟨e, Or.inl he, hn⟩
      · exact ⟨e, Or.inr (Or.inl he), hn⟩
      · exact ⟨k.value, Or.inr (Or.inr ⟨k, hk, rfl⟩), hn⟩
  · intro targets value n
    rw [mem_definitionTimeDeps]
    simp [contextNodes]
  · intro target ann value n
    rw [mem_definitionTimeDeps]
    cases value <;> simp [contextNodes]
  · intro nm dec args ret body
    rfl
  · intro nm dec bases kws body
    rfl

/-! ## Determinism of the closure (claim C10)

Python iterates the set `_name_loads_in(sym.node)` in an unspecified order
before sorting it; the closure is parameterized by that enumeration, and the
bundler output is proved independent of it. -/

/-- Any two enumerations of the load set sort to the same list. -/
theorem sortedLoadsP_congr {f g : Stmt → List String}
    (hf : ∀ s, (f s).Perm (canonLoads s)) (hg : ∀ s, (g s).Perm (canonLoads s))
    (s : Stmt) : sortedLoadsP f s = sortedLoadsP g s :=
  List.eq_of_perm_of_sorted
    (((f s).perm_insertionSort (· ≤ ·)).trans
      (((hf s).trans (hg s).symm).trans ((g s).perm_insertionSort (· ≤ ·)).symm))
    (List.sorted_insertionSort (· ≤ ·) (f s))
    (List.sorted_insertionSort (· ≤ ·) (g s))

theorem closureBody_congr {f g : Stmt → List String}
    (hfg : ∀ s, sortedLoadsP f s = sortedLoadsP g s)
    (mods : List (String × List Line)) (st : ClosureState)
    (item : ImportedSymbol) (rest : List ImportedSymbol) :
    closureBody f mods st item rest = closureBody g mods st item rest := by
  unfold closureBody includeStep
  simp only [hfg]

theorem closureLoop_congr {f g : Stmt → List String}
    (hfg : ∀ s, sortedLoadsP f s = sortedLoadsP g s)
    (mods : List (String × List Line)) :
    ∀ (fuel : Nat) (st : ClosureState),
      closureLoop f mods fuel st = closureLoop g mods fuel st := by
  intro fuel
  induction fuel with
  | zero =>
      intro st
      rw [closureLoop, closureLoop]
  | succ fuel ih =>
      intro st
      rw [closureLoop, closureLoop]
      cases hq : st.queue with
      | nil => rfl
      | cons item rest =>
          change (closureBody f mods st item rest).bind (closureLoop f mods fuel) =
            (closureBody g mods st item rest).bind (closureLoop g mods fuel)
          rw [closureBody_congr hfg]
          cases closureBody g mods st item rest with
          | error e => rfl
          | ok st2 => exact ih st2

/-- C10: bundling is deterministic and independent of the iteration order
of the load-name sets — for any two valid enumerations of
`_name_loads_in`, the bundler produces identical output; the mechanism is
that transitive dependencies are enqueued in lexicographically sorted
order. -/
theorem claim_C10_determinism (f g : Stmt → List String)
    (hf : ∀ s, (f s).Perm (canonLoads s)) (hg : ∀ s, (g s).Perm (canonLoads s))
    (entry : List Line) (mods : List (String × List Line)) :
    bundleFileP f entry mods = bundleFileP g entry mods ∧
    (∀ s : Stmt, List.Sorted (· ≤ ·) (sortedLoadsP f s)) := by
  constructor
  · unfold bundleFileP runClosureP
    simp only [closureLoop_congr (sortedLoadsP_congr hf hg) mods]
  · intro s
    exact List.sorted_insertionSort (· ≤ ·) (f s)

theorem claim_C10_determinism_witness :
    bundleFileP canonLoads entryW modsW =
      bundleFileP (fun s => (canonLoads s).reverse) entryW modsW :=
  (claim_C10_determinism canonLoads (fun s => (canonLoads s).reverse)
    (fun s => List.Perm.refl (canonLoads s))
    (fun s => (canonLoads s).reverse_perm) entryW modsW).1

/-! ## Termination of the symbol closure (claim C8) -/

/-- A name present in the symbol table of a mapped module belongs to the
global name space `tableNamesOf`. -/
theorem mem_tableNamesOf {mods : List (String × List Line)} {m : String}
    {src : List Line} {k : String} (hsrc : dlookup mods m = some src)
    (hk : dmem (buildSymbolTable (parseLines src)) k = true) :
    k ∈ tableNamesOf mods := by
  have hmem : (m, src) ∈ mods := dlookup_mem hsrc
  rcases Option.isSome_iff_exists.mp (by simpa [dmem] using hk) with ⟨v, hv⟩
  have hkv : (k, v) ∈ buildSymbolTable (parseLines src) := dlookup_mem hv
  unfold tableNamesOf
  rw [List.mem_flatten]
  refine ⟨(buildSymbolTable (parseLines src)).map Prod.fst, ?_, ?_⟩
  · rw [List.mem_map]
    exact ⟨(m, src), hmem, rfl⟩
  · rw [List.mem_map]
    exact ⟨(k, v), hkv, rfl⟩

/-- A name in the table reachable through `tableOf` belongs to the global
name space. -/
theorem mem_tableNamesOf_tableOf {mods : List (String × List Line)} {m k : String}
    (hk : dmem (tableOf mods m) k = true) : k ∈ tableNamesOf mods := by
  unfold tableOf at hk
  cases hsrc : dlookup mods m with
  | none => rw [hsrc] at hk; simp [dmem, dlookup] at hk
  | some src => rw [hsrc] at hk; exact mem_tableNamesOf hsrc hk

/-- A duplicate-free list of elements of `u` is no longer than `u`. -/
theorem nodup_sub_length_le {l u : List String} (hn : l.Nodup)
    (hsub : ∀ x ∈ l, x ∈ u) : l.length ≤ u.length := by
  calc l.length = l.toFinset.card := (List.toFinset_card_of_nodup hn).symm
    _ ≤ u.toFinset.card := Finset.card_le_card fun x hx => by
        rw [List.mem_toFinset] at hx ⊢
        exact hsub x hx
    _ ≤ u.length := List.toFinset_card_le u

/-- A successful `get_module` call resolves through the module map and
changes only the cache and the collected import lines. -/
theorem getModule_ok {mods : List (String × List Line)} {st : ClosureState}
    {modname : String} {ms : ModuleSource} {st1 : ClosureState}
    (h : getModule mods st modname = .ok (ms, st1)) :
    (∃ src, dlookup mods modname = some src ∧ ms = mkModuleSource modname src) ∧
    st1.queue = st.queue ∧ st1.included = st.included ∧
    st1.includedNames = st.includedNames ∧ st1.aliases = st.aliases := by
  unfold getModule at h
  cases hsrc : dlookup mods modname with
  | none => rw [hsrc] at h; exact absurd h (by simp)
  | some src =>
      rw [hsrc] at h
      by_cases hc : modname ∈ st.cache
      · simp only [if_pos hc] at h
        obtain ⟨h1, h2⟩ := Prod.mk.injEq .. ▸ Except.ok.inj h
        exact ⟨⟨src, rfl, h1.symm⟩, by rw [← h2], by rw [← h2], by rw [← h2], by rw [← h2]⟩
      · simp only [if_neg hc] at h
        obtain ⟨h1, h2⟩ := Prod.mk.injEq .. ▸ Except.ok.inj h
        exact ⟨⟨src, rfl, h1.symm⟩, by rw [← h2], by rw [← h2], by rw [← h2], by rw [← h2]⟩

/-- The alias step changes only the alias list. -/
theorem aliasStep_fields (st2 : ClosureState) (item : ImportedSymbol) :
    (aliasStep st2 item).queue = st2.queue ∧
    (aliasStep st2 item).included = st2.included ∧
    (aliasStep st2 item).includedNames = st2.includedNames := by
  unfold aliasStep
  cases item.asname with
  | none => exact ⟨rfl, rfl, rfl⟩
  | some a => by_cases hc : a ≠ "" ∧ a ≠ item.name <;> simp [hc]

/-- Case analysis of one successful closure iteration: the item's module
resolves, its name is present in that module's symbol table, and the
tracking state either skips an already-included name (queue shrinks) or
includes the new symbol and enqueues its sorted, filtered in-table loads. -/
theorem closureBody_spec {lo : Stmt → List String} {mods : List (String × List Line)}
    {st st' : ClosureState} {item : ImportedSymbol} {rest : List ImportedSymbol}
    (hok : closureBody lo mods st item rest = .ok st') :
    ∃ (src : List Line) (p : PStmt),
      dlookup mods item.module = some src ∧
      dlookup (buildSymbolTable (parseLines src)) item.name = some p ∧
      ((item.name ∈ st.includedNames ∧
        st'.included = st.included ∧
        st'.includedNames = st.includedNames ∧
        st'.queue = rest) ∨
       (item.name ∉ st.includedNames ∧
        st'.included = st.included ++ [⟨item.name, p.stmt, item.module, p.lineno⟩] ∧
        st'.includedNames = st.includedNames ++ [item.name] ∧
        st'.queue = rest ++
          ((sortedLoadsP lo p.stmt).filter
            (fun dep => dep ∉ st.includedNames ++ [item.name] ∧
              dmem (buildSymbolTable (parseLines src)) dep)).map
            (fun dep => ImportedSymbol.mk item.module dep none))) := by
  unfold closureBody at hok
  cases hgm : getModule mods { st with queue := rest } item.module with
  | error e => rw [hgm] at hok; simp [bind, Except.bind] at hok
  | ok pair =>
      obtain ⟨ms, st1⟩ := pair
      rw [hgm] at hok
      simp only [bind, Except.bind] at hok
      obtain ⟨⟨src, hsrc, hms⟩, hq1, hi1, hn1, _⟩ := getModule_ok hgm
      refine ⟨src, ?_⟩
      cases hp : dlookup (buildSymbolTable ms.body) item.name with
      | none => rw [hp] at hok; simp at hok
      | some p =>
          rw [hp] at hok
          refine ⟨p, hsrc, ?_, ?_⟩
          · rw [← hp, hms]; rfl
          · have hbody : ms.body = parseLines src := by rw [hms]; rfl
            have hok2 : aliasStep (includeStep lo (buildSymbolTable ms.body) st1 item
                (extractSymbolDef ms item.name p)) item = st' := by
              simpa using hok
            obtain ⟨ha1, ha2, ha3⟩ := aliasStep_fields (includeStep lo
              (buildSymbolTable ms.body) st1 item (extractSymbolDef ms item.name p)) item
            rw [hok2] at ha1 ha2 ha3
            have hsymname : (extractSymbolDef ms item.name p).name = item.name := rfl
            have hq1r : st1.queue = rest := by rw [hq1]
            have hi1r : st1.included = st.included := by rw [hi1]
            have hn1r : st1.includedNames = st.includedNames := by rw [hn1]
            have hsym : extractSymbolDef ms item.name p =
                ⟨item.name, p.stmt, item.module, p.lineno⟩ := by
              unfold extractSymbolDef
              rw [hms]
              rfl
            by_cases hin : item.name ∈ st.includedNames
            · left
              have hstep : includeStep lo (buildSymbolTable ms.body) st1 item
                  (extractSymbolDef ms item.name p) = st1 := by
                unfold includeStep
                rw [if_pos (by rw [hsymname, hn1r]; exact hin)]
              rw [hstep] at ha1 ha2 ha3
              exact ⟨hin, by rw [ha2, hi1r], by rw [ha3, hn1r], by rw [ha1, hq1r]⟩
            · right
              have hstep : includeStep lo (buildSymbolTable ms.body) st1 item
                  (extractSymbolDef ms item.name p) =
                  { st1 with
                    included := st1.included ++ [extractSymbolDef ms item.name p],
                    includedNames := st1.includedNames ++ [item.name],
                    queue := st1.queue ++
                      ((sortedLoadsP lo (extractSymbolDef ms item.name p).node).filter
                        (fun dep => dep ∉ st1.includedNames ++ [item.name] ∧
                          dmem (buildSymbolTable ms.body) dep)).map
                        (fun dep => ImportedSymbol.mk item.module dep none) } := by
                unfold includeStep
                rw [if_neg (by rw [hsymname, hn1r]; exact hin)]
                simp only [hsymname]
              rw [hstep] at ha1 ha2 ha3
              simp only at ha1 ha2 ha3
              refine ⟨hin, ?_, ?_, ?_⟩
              · rw [ha2, hi1r, hsym]
              · rw [ha3, hn1r]
              · rw [ha1, hq1r, hn1r, hsym, hbody]

/-- The only error `get_module` raises is module-not-found. -/
theorem getModule_error {mods : List (String × List Line)} {st : ClosureState}
    {modname : String} {e : BundleErr}
    (h : getModule mods st modname = .error e) : e = .moduleNotFoundAbs modname := by
  unfold getModule at h
  cases hsrc : dlookup mods modname with
  | none => rw [hsrc] at h; exact (Except.error.inj h).symm
  | some src =>
      rw [hsrc] at h
      by_cases hc : modname ∈ st.cache <;> simp [hc] at h

/-- A closure iteration never raises the fuel marker. -/
theorem closureBody_error {lo : Stmt → List String} {mods : List (String × List Line)}
    {st : ClosureState} {item : ImportedSymbol} {rest : List ImportedSymbol}
    {e : BundleErr} (h : closureBody lo mods st item rest = .error e) :
    e ≠ .fuelExhausted := by
  unfold closureBody at h
  cases hgm : getModule mods { st with queue := rest } item.module with
  | error e2 =>
      rw [hgm] at h
      simp only [bind, Except.bind] at h
      rw [getModule_error hgm] at h
      rw [← Except.error.inj h]
      simp
  | ok pair =>
      obtain ⟨ms, st1⟩ := pair
      rw [hgm] at h
      simp only [bind, Except.bind] at h
      cases hp : dlookup (buildSymbolTable ms.body) item.name with
      | none =>
          rw [hp] at h
          rw [← Except.error.inj h]
          simp
      | some p => rw [hp] at h; simp at h

/-- One successful closure iteration preserves the name invariants and
strictly decreases the measure. -/
theorem closureBody_measure {mods : List (String × List Line)} {st st' : ClosureState}
    {item : ImportedSymbol} {rest : List ImportedSymbol}
    (hok : closureBody canonLoads mods st item rest = .ok st')
    (hq : st.queue = item :: rest) (hnd : st.includedNames.Nodup)
    (hsub : ∀ n ∈ st.includedNames, n ∈ tableNamesOf mods) :
    st'.includedNames.Nodup ∧ (∀ n ∈ st'.includedNames, n ∈ tableNamesOf mods) ∧
    closureMeasure mods st' < closureMeasure mods st := by
  obtain ⟨src, p, hsrc, hp, hcase⟩ := closureBody_spec hok
  rcases hcase with ⟨hin, hi, hn, hqq⟩ | ⟨hin, hi, hn, hqq⟩
  · refine ⟨hn ▸ hnd, hn ▸ hsub, ?_⟩
    unfold closureMeasure
    rw [hn, hqq, hq]
    simp
  · have hnametab : dmem (buildSymbolTable (parseLines src)) item.name = true := by
      simp [dmem, hp]
    have hnameU : item.name ∈ tableNamesOf mods := mem_tableNamesOf hsrc hnametab
    have hnd2 : st'.includedNames.Nodup := by
      rw [hn, List.nodup_append]
      exact ⟨hnd, List.nodup_singleton _, by
        intro a ha hb
        rw [List.mem_singleton] at hb
        exact hin (hb ▸ ha)⟩
    have hsub2 : ∀ n ∈ st'.includedNames, n ∈ tableNamesOf mods := by
      intro n hnm
      rw [hn, List.mem_append, List.mem_singleton] at hnm
      rcases hnm with hnm | hnm
      · exact hsub n hnm
      · exact hnm ▸ hnameU
    refine ⟨hnd2, hsub2, ?_⟩
    have hdeps_nodup : ((sortedLoadsP canonLoads p.stmt).filter
        (fun dep => dep ∉ st.includedNames ++ [item.name] ∧
          dmem (buildSymbolTable (parseLines src)) dep)).Nodup := by
      apply List.Nodup.filter
      exact (((canonLoads p.stmt).perm_insertionSort (· ≤ ·)).nodup_iff).mpr
        (List.nodup_dedup _)
    have hdeps_sub : ∀ x ∈ (sortedLoadsP canonLoads p.stmt).filter
        (fun dep => dep ∉ st.includedNames ++ [item.name] ∧
          dmem (buildSymbolTable (parseLines src)) dep), x ∈ tableNamesOf mods := by
      intro x hx
      rw [List.mem_filter] at hx
      have := hx.2
      simp only [decide_eq_true_eq] at this
      exact mem_tableNamesOf hsrc this.2
    have hd : ((sortedLoadsP canonLoads p.stmt).filter
        (fun dep => dep ∉ st.includedNames ++ [item.name] ∧
          dmem (buildSymbolTable (parseLines src)) dep)).length ≤
        (tableNamesOf mods).length :=
      nodup_sub_length_le hdeps_nodup hdeps_sub
    have hi1 : st'.includedNames.length = st.includedNames.length + 1 := by
      rw [hn]; simp
    have hiu : st.includedNames.length + 1 ≤ (tableNamesOf mods).length := by
      rw [← hi1]; exact nodup_sub_length_le hnd2 hsub2
    unfold closureMeasure
    rw [hn, hqq, hq]
    simp only [List.length_append, List.length_cons, List.length_map, List.length_nil,
      Nat.zero_add]
    have hUi : (tableNamesOf mods).length - st.includedNames.length =
        ((tableNamesOf mods).length - (st.includedNames.length + 1)) + 1 := by omega
    rw [hUi, Nat.add_mul, one_mul]
    omega

/-- The closure loop never exhausts its fuel when given more fuel than the
measure of its state. -/
theorem closureLoop_no_fuel (mods : List (String × List Line)) :
    ∀ (fuel : Nat) (st : ClosureState),
      st.includedNames.Nodup →
      (∀ n ∈ st.includedNames, n ∈ tableNamesOf mods) →
      closureMeasure mods st < fuel →
      closureLoop canonLoads mods fuel st ≠ .error .fuelExhausted := by
  intro fuel
  induction fuel with
  | zero => intro st _ _ hm; exact absurd hm (Nat.not_lt_zero _)
  | succ fuel ih =>
      intro st hnd hsub hm
      rw [closureLoop]
      cases hq : st.queue with
      | nil => simp
      | cons item rest =>
          change (closureBody canonLoads mods st item rest).bind
            (closureLoop canonLoads mods fuel) ≠ _
          cases hb : closureBody canonLoads mods st item rest with
          | error e =>
              have he := closureBody_error hb
              intro hc
              exact he (Except.error.inj hc)
          | ok st2 =>
              obtain ⟨hnd2, hsub2, hlt⟩ := closureBody_measure hb hq hnd hsub
              exact ih st2 hnd2 hsub2 (by omega)

/-- The entry import scan errors only with the wildcard rejection. -/
theorem parseImportedStep_error {acc : List ImportedSymbol} {p : PStmt} {e : BundleErr}
    (h : parseImportedStep acc p = .error e) : e = .unsupportedImportStar := by
  unfold parseImportedStep at h
  split at h
  · split at h
    · split at h
      · exact (Except.error.inj h).symm
      · exact absurd h (by simp)
    · exact absurd h (by simp)
  · exact absurd h (by simp)

theorem parseImportedSymbols_error {body : List PStmt} {e : BundleErr}
    (h : parseImportedSymbols body = .error e) : e = .unsupportedImportStar := by
  have general : ∀ (l : List PStmt) (acc : List ImportedSymbol),
      l.foldlM parseImportedStep acc = .error e → e = .unsupportedImportStar := by
    intro l
    induction l with
    | nil => intro acc h2; exact absurd h2 (by simp [pure, Except.pure])
    | cons p rest ih =>
        intro acc h2
        rw [List.foldlM_cons] at h2
        cases hs : parseImportedStep acc p with
        | error e2 =>
            rw [hs] at h2
            simp only [bind, Except.bind] at h2
            rw [← Except.error.inj h2]
            exact parseImportedStep_error hs
        | ok acc2 =>
            rw [hs] at h2
            simp only [bind, Except.bind] at h2
            exact ih acc2 h2
  exact general body [] h

/-- The stripping scan errors only with the whole-import rejection. -/
theorem stripScan_error_only {body : List PStmt} {e : BundleErr}
    (h : stripScan body = .error e) : e = .unsupportedImportWhole := by
  induction body with
  | nil => exact absurd h (by simp [stripScan])
  | cons p rest ih =>
      unfold stripScan at h
      by_cases h1 : isLibImportFrom p.stmt = true
      · rw [if_pos h1] at h
        cases hs : stripScan rest with
        | error e2 =>
            rw [hs] at h
            have he : e2 = e := by
              simp [Except.map] at h
              exact h
            exact ih (he ▸ hs)
        | ok r => rw [hs] at h; exact absurd h (by simp [Except.map])
      · rw [if_neg h1] at h
        by_cases h2 : isFutureImportFrom p.stmt = true
        · rw [if_pos h2] at h
          cases hs : stripScan rest with
          | error e2 =>
              rw [hs] at h
              have he : e2 = e := by
                simp [Except.map] at h
                exact h
              exact ih (he ▸ hs)
          | ok r => rw [hs] at h; exact absurd h (by simp [Except.map])
        · rw [if_neg h2] at h
          split at h
          · split at h
            · exact (Except.error.inj h).symm
            · exact ih h
          · exact ih h

/-- The emission phase errors only with the whole-import rejection. -/
theorem emitBundle_error_only {entry : List Line} {entryBody : List PStmt}
    {stF : ClosureState} {e : BundleErr}
    (h : emitBundle entry entryBody stF = .error e) : e = .unsupportedImportWhole := by
  unfold emitBundle stripLibImports at h
  cases hs : stripScan entryBody with
  | error e2 =>
      rw [hs] at h
      exact (Except.error.inj h) ▸ stripScan_error_only hs
  | ok r => rw [hs] at h; exact absurd h (by simp [Except.map])

/-- C8: the symbol-closure loop terminates on every input — the embedding
runs it on explicit fuel bounded by the number of distinct includable
names, and the bundler never reports fuel exhaustion. -/
theorem claim_C8_closure_termination (entry : List Line)
    (mods : List (String × List Line)) :
    bundleFile entry mods ≠ .error .fuelExhausted := by
  unfold bundleFile bundleFileP
  cases hpi : parseImportedSymbols (parseLines entry) with
  | error e =>
      intro hc
      simp only [Except.bind] at hc
      exact absurd ((Except.error.inj hc) ▸ parseImportedSymbols_error hpi) (by simp)
  | ok imported =>
      simp only [Except.bind]
      by_cases hemp : imported.isEmpty
      · simp [hemp]
      · simp only [hemp, Bool.false_eq_true, if_false]
        cases hrc : runClosureP canonLoads mods imported with
        | error e =>
            have hne : e ≠ .fuelExhausted := by
              intro hee
              apply closureLoop_no_fuel mods (closureFuel mods imported)
                (initClosureState imported) (by simp [initClosureState])
                (by simp [initClosureState]) ?_ (hee ▸ hrc)
              unfold closureMeasure closureFuel initClosureState
              simp only [List.length_nil, Nat.sub_zero]
              exact Nat.lt_succ_self _
            intro hc
            apply hne
            simpa using hc
        | ok stF =>
            intro hc
            have hcc : emitBundle entry (parseLines entry) stF =
                .error .fuelExhausted := by simpa using hc
            exact absurd (emitBundle_error_only hcc) (by simp)

/-! ## Inclusion completeness and identity of the closure (claim C1) -/

/-- Membership in the sorted canonical load enumeration is membership in
the raw loads. -/
theorem mem_sortedLoads {dep : String} {s : Stmt} :
    dep ∈ sortedLoadsP canonLoads s ↔ dep ∈ stmtLoads s := by
  unfold sortedLoadsP canonLoads
  rw [((stmtLoads s).dedup.perm_insertionSort (· ≤ ·)).mem_iff, List.mem_dedup]

/-- One successful closure iteration preserves the closure invariant. -/
theorem closureBody_inv {mods : List (String × List Line)} {st st' : ClosureState}
    {item : ImportedSymbol} {rest : List ImportedSymbol}
    (hok : closureBody canonLoads mods st item rest = .ok st')
    (hq : st.queue = item :: rest)
    (hinv : ClosureInv mods st) : ClosureInv mods st' := by
  obtain ⟨hmap, hnd, hsub, hcomp⟩ := hinv
  obtain ⟨src, p, hsrc, hp, hcase⟩ := closureBody_spec hok
  rcases hcase with ⟨hin, hi, hn, hqq⟩ | ⟨hin, hi, hn, hqq⟩
  · refine ⟨by rw [hn, hi, hmap], by rw [hn]; exact hnd, by rw [hn]; exact hsub, ?_⟩
    intro s hs dep hdep htab
    rw [hi] at hs
    rcases hcomp s hs dep hdep htab with hinc | ⟨it, hit, him, hnm⟩
    · left; rw [hn]; exact hinc
    · rw [hq] at hit
      rcases List.mem_cons.mp hit with he | he
      · left
        rw [hn]
        have : dep = item.name := by rw [← hnm, he]
        exact this ▸ hin
      · right
        exact ⟨it, by rw [hqq]; exact he, him, hnm⟩
  · have hnametab : dmem (buildSymbolTable (parseLines src)) item.name = true := by
      simp [dmem, hp]
    have hnameU : item.name ∈ tableNamesOf mods := mem_tableNamesOf hsrc hnametab
    have hnd2 : st'.includedNames.Nodup := by
      rw [hn, List.nodup_append]
      exact ⟨hnd, List.nodup_singleton _, by
        intro a ha hb
        rw [List.mem_singleton] at hb
        exact hin (hb ▸ ha)⟩
    have hsub2 : ∀ n ∈ st'.includedNames, n ∈ tableNamesOf mods := by
      intro n hnm
      rw [hn, List.mem_append, List.mem_singleton] at hnm
      rcases hnm with hnm | hnm
      · exact hsub n hnm
      · exact hnm ▸ hnameU
    have hmap2 : st'.includedNames = st'.included.map SymbolDef.name := by
      rw [hn, hi, hmap, List.map_append]
      rfl
    refine ⟨hmap2, hnd2, hsub2, ?_⟩
    intro s hs dep hdep htab
    rw [hi, List.mem_append, List.mem_singleton] at hs
    rcases hs with hs | hs
    · rcases hcomp s hs dep hdep htab with hinc | ⟨it, hit, him, hnm⟩
      · left; rw [hn]; exact List.mem_append_left _ hinc
      · rw [hq] at hit
        rcases List.mem_cons.mp hit with he | he
        · left
          rw [hn]
          have : dep = item.name := by rw [← hnm, he]
          rw [this]
          exact List.mem_append_right _ (List.mem_singleton_self _)
        · right
          exact ⟨it, by rw [hqq]; exact List.mem_append_left _ he, him, hnm⟩
    · subst hs
      simp only at hdep htab
      have htab2 : dmem (buildSymbolTable (parseLines src)) dep = true := by
        unfold tableOf at htab
        rw [hsrc] at htab
        exact htab
      by_cases hdin : dep ∈ st.includedNames ++ [item.name]
      · left; rw [hn]; exact hdin
      · right
        refine ⟨⟨item.module, dep, none⟩, ?_, rfl, rfl⟩
        rw [hqq]
        apply List.mem_append_right
        rw [List.mem_map]
        refine ⟨dep, ?_, rfl⟩
        rw [List.mem_filter]
        refine ⟨mem_sortedLoads.mpr hdep, ?_⟩
        simp only [decide_eq_true_eq]
        exact ⟨hdin, htab2⟩

/-- The closure loop preserves the invariant and, on success, ends with an
empty queue. -/
theorem closureLoop_inv (mods : List (String × List Line)) :
    ∀ (fuel : Nat) (st stF : ClosureState), ClosureInv mods st →
      closureLoop canonLoads mods fuel st = .ok stF →
      ClosureInv mods stF ∧ stF.queue = [] := by
  intro fuel
  induction fuel with
  | zero =>
      intro st stF hinv h
      rw [closureLoop] at h
      cases hq : st.queue with
      | nil =>
          rw [hq] at h
          have hst : st = stF := Except.ok.inj h
          exact ⟨hst ▸ hinv, hst ▸ hq⟩
      | cons item rest => rw [hq] at h; simp at h
  | succ fuel ih =>
      intro st stF hinv h
      rw [closureLoop] at h
      cases hq : st.queue with
      | nil =>
          rw [hq] at h
          have hst : st = stF := Except.ok.inj h
          exact ⟨hst ▸ hinv, hst ▸ hq⟩
      | cons item rest =>
          rw [hq] at h
          have h2 : (closureBody canonLoads mods st item rest).bind
              (closureLoop canonLoads mods fuel) = .ok stF := h
          cases hb : closureBody canonLoads mods st item rest with
          | error e => rw [hb] at h2; simp [Except.bind] at h2
          | ok st2 =>
              rw [hb] at h2
              simp only [Except.bind] at h2
              exact ih st2 stF (closureBody_inv hb hq hinv) h2

/-- C1 (amended): the closure deduplicates by the BARE symbol name (the
`included_names` set), so each name appears exactly once in the final
included set (its first materialized symbol), and every name loaded inside
an included definition that exists in that definition's own module's
symbol table appears exactly once.  Two same-named symbols from different
modules are NOT both included — the bare name, not the (module, name,
line) triple, is the closure's dedup identity; the triple is only the
topological sort's internal node identity. -/
theorem claim_C1_amended (mods : List (String × List Line))
    (imported : List ImportedSymbol) (stF : ClosureState)
    (hok : runClosureP canonLoads mods imported = .ok stF) :
    (stF.included.map SymbolDef.name).Nodup ∧
    ∀ s ∈ stF.included, ∀ dep ∈ stmtLoads s.node,
      dmem (tableOf mods s.module) dep = true →
      dep ∈ stF.included.map SymbolDef.name := by
  have hinit : ClosureInv mods (initClosureState imported) :=
    ⟨rfl, List.nodup_nil, by simp [initClosureState], by simp [initClosureState]⟩
  obtain ⟨⟨hmap, hnd, _, hcomp⟩, hqe⟩ := closureLoop_inv mods _ _ _ hinit hok
  refine ⟨hmap ▸ hnd, ?_⟩
  intro s hs dep hdep htab
  rcases hcomp s hs dep hdep htab with hinc | ⟨it, hit, _, _⟩
  · exact hmap ▸ hinc
  · rw [hqe] at hit
    simp at hit

theorem claim_C1_amended_witness :
    (stH.included.map SymbolDef.name).Nodup ∧
    "BASE" ∈ stH.included.map SymbolDef.name :=
  ⟨(claim_C1_amended modsH importedH stH rfl).1,
   (claim_C1_amended modsH importedH stH rfl).2 symFooH (by decide)
     "BASE" (by decide) (by decide)⟩

/-- C1 counterexample: with `lib.a` and `lib.b` both defining `f` and the
entry importing `f` from BOTH modules, the closure includes only the
`lib.a` copy — the two same-named symbols are not tracked as distinct
entities, contradicting the claimed (module, name, line) identity. -/
theorem claim_C1_counterexample :
    runClosureP canonLoads modsC1 importedC1 = .ok stC1 ∧
    stC1.included.map (fun s => (s.module, s.name)) = [("lib.a", "f")] ∧
    (¬ ∃ s ∈ stC1.included, s.module = "lib.b") := by
  refine ⟨rfl, rfl, by decide⟩

/-! ## Idempotence of re-bundling (claim C5) -/

/-- C5 counterexample: the bundled output of `entryC5` carries the
top-level `from lib.b import g` line of module `lib.a` in its Imports
region, so re-bundling that output is NOT a no-op — the second run
produces a different text. -/
theorem claim_C5_counterexample :
    bundleFile entryC5 modsC5 = .ok outC5 ∧
    bundleFile outC5 modsC5 = .ok outC5b ∧
    outC5b ≠ outC5 :=
  ⟨rfl, rfl, by decide⟩

/-- C5 (amended): re-bundling a first run's output is a no-op exactly when
that output contains no top-level library-namespace from-imports; bundled
library modules may propagate their own top-level `from lib... import`
lines into the Imports region, and re-bundling is then not a no-op. -/
theorem claim_C5_idempotence_amended (entry o : List Line)
    (mods : List (String × List Line))
    (_h1 : bundleFile entry mods = .ok o)
    (h2 : ∀ p ∈ parseLines o, isLibImportFrom p.stmt = false) :
    bundleFile o mods = .ok o :=
  bundleFileP_noop canonLoads o mods h2

theorem claim_C5_idempotence_amended_witness :
    bundleFile outW modsW = .ok outW :=
  claim_C5_idempotence_amended entryW outW modsW rfl (by decide)

/-! ## Topological sort (claim C4)

Correctness of the Kahn loop of `_toposort_symbols`: when every node is
emitted, every dependency edge is respected; otherwise the function falls
back to the input order wholesale. -/

theorem dgetD_eq {α : Type} [Inhabited α] {d : List (String × α)} {k : String} {v : α}
    (h : dlookup d k = some v) : dgetD d k = v := by
  unfold dgetD
  rw [h]
  rfl

/-- Keys not written by the `by_id` fold keep their prior binding. -/
theorem byId_foldl_notmem (l : List SymbolDef) (acc : List (String × SymbolDef))
    (k : String) (hk : k ∉ l.map sidOf) :
    dlookup (l.foldl (fun d s => dset d (sidOf s) s) acc) k = dlookup acc k := by
  induction l generalizing acc with
  | nil => rfl
  | cons s rest ih =>
      rw [List.map_cons] at hk
      have h1 : k ≠ sidOf s := fun he => hk (he ▸ List.mem_cons_self _ _)
      have h2 : k ∉ rest.map sidOf := fun he => hk (List.mem_cons_of_mem _ he)
      rw [List.foldl_cons, ih (dset acc (sidOf s) s) h2,
        dlookup_dset_ne acc (sidOf s) k s h1]

/-- With duplicate-free symbol ids, `by_id` lookup recovers each symbol. -/
theorem byId_lookup {symbols : List SymbolDef} (hnd : (symbols.map sidOf).Nodup)
    {s : SymbolDef} (hs : s ∈ symbols) :
    dlookup (byIdOf symbols) (sidOf s) = some s := by
  unfold byIdOf
  have general : ∀ (l : List SymbolDef) (acc : List (String × SymbolDef)),
      (l.map sidOf).Nodup → s ∈ l →
      dlookup (l.foldl (fun d t => dset d (sidOf t) t) acc) (sidOf s) = some s := by
    intro l
    induction l with
    | nil => intro acc _ hmem; exact absurd hmem (by simp)
    | cons t rest ih =>
        intro acc hndl hmem
        rw [List.map_cons, List.nodup_cons] at hndl
        rw [List.foldl_cons]
        rcases List.mem_cons.mp hmem with he | he
        · subst he
          rw [byId_foldl_notmem rest (dset acc (sidOf s) s) (sidOf s) hndl.1,
            dlookup_dset_self]
        · exact ih (dset acc (sidOf t) t) hndl.2 he
  exact general symbols [] hnd hs

/-- Keys not in the written list retain the initial row. -/
theorem depsOf_foldl_notmem (g : String → List String) (ks : List String)
    (f0 : String → List String) (k : String) (hk : k ∉ ks) :
    (ks.foldl (fun f sid => fupd f sid (g sid)) f0) k = f0 k := by
  induction ks generalizing f0 with
  | nil => rfl
  | cons k2 rest ih =>
      have h1 : k ≠ k2 := fun he => hk (he ▸ List.mem_cons_self _ _)
      have h2 : k ∉ rest := fun he => hk (List.mem_cons_of_mem _ he)
      rw [List.foldl_cons, ih (fupd f0 k2 (g k2)) h2]
      unfold fupd
      rw [if_neg h1]

/-- With duplicate-free keys, the row fold writes each key its row. -/
theorem depsOf_foldl_mem (g : String → List String) {ks : List String}
    (hnd : ks.Nodup) (f0 : String → List String) {k : String} (hk : k ∈ ks) :
    (ks.foldl (fun f sid => fupd f sid (g sid)) f0) k = g k := by
  induction ks generalizing f0 with
  | nil => exact absurd hk (by simp)
  | cons k2 rest ih =>
      rw [List.nodup_cons] at hnd
      rw [List.foldl_cons]
      rcases List.mem_cons.mp hk with he | he
      · subst he
        rw [depsOf_foldl_notmem g rest (fupd f0 k (g k)) k hnd.1]
        unfold fupd
        rw [if_pos rfl]
      · exact ih hnd.2 (fupd f0 k2 (g k2)) he

/-- `deps[sid]` for a symbol in a duplicate-free order is its dependency
row. -/
theorem depsOf_eq_depRow {symbols : List SymbolDef} (hnd : (symbols.map sidOf).Nodup)
    {s : SymbolDef} (hs : s ∈ symbols) :
    depsOf symbols (sidOf s) = depRow (nameToFirstOf symbols) (sidOf s) s := by
  unfold depsOf orderOf
  rw [depsOf_foldl_mem _ hnd _ (List.mem_map_of_mem sidOf hs)]
  rw [dgetD_eq (byId_lookup hnd hs)]

/-- Rows outside the order are empty. -/
theorem depsOf_notmem {symbols : List SymbolDef} {k : String}
    (hk : k ∉ orderOf symbols) : depsOf symbols k = [] := by
  unfold depsOf
  rw [depsOf_foldl_notmem _ _ _ _ hk]

/-- Membership after one edge step. -/
theorem depRowStep_mem (ntf : List (String × String)) (sid : String)
    (row : List String) (nm d : String) :
    d ∈ depRowStep ntf sid row nm ↔
      (d ∈ row ∨ (dlookup ntf nm = some d ∧ d ≠ sid)) := by
  unfold depRowStep
  cases hl : dlookup ntf nm with
  | none =>
      show d ∈ row ↔ _
      simp
  | some depId =>
      show d ∈ (if depId = sid ∨ depId ∈ row then row else row ++ [depId]) ↔ _
      by_cases hc : depId = sid ∨ depId ∈ row
      · rw [if_pos hc]
        constructor
        · exact Or.inl
        · rintro (hd | ⟨hd1, hd2⟩)
          · exact hd
          · have hdd : depId = d := Option.some.inj hd1
            rcases hc with hc | hc
            · exact absurd (hdd ▸ hc) hd2
            · exact hdd ▸ hc
      · rw [if_neg hc]
        push_neg at hc
        rw [List.mem_append, List.mem_singleton]
        constructor
        · rintro (hd | hd)
          · exact Or.inl hd
          · exact Or.inr ⟨by rw [hd], hd ▸ hc.1⟩
        · rintro (hd | ⟨hd1, _⟩)
          · exact Or.inl hd
          · exact Or.inr (Option.some.inj hd1).symm

/-- The edge step keeps rows duplicate-free. -/
theorem depRowStep_nodup (ntf : List (String × String)) (sid : String)
    (row : List String) (nm : String) (hrow : row.Nodup) :
    (depRowStep ntf sid row nm).Nodup := by
  unfold depRowStep
  cases hl : dlookup ntf nm with
  | none => exact hrow
  | some depId =>
      show (if depId = sid ∨ depId ∈ row then row else row ++ [depId]).Nodup
      by_cases hc : depId = sid ∨ depId ∈ row
      · rw [if_pos hc]; exact hrow
      · rw [if_neg hc]
        rw [List.nodup_append]
        exact ⟨hrow, List.nodup_singleton _, by
          intro a ha hb
          rw [List.mem_singleton] at hb
          exact hc (Or.inr (hb ▸ ha))⟩

/-- The dependency-row fold keeps rows duplicate-free. -/
theorem depRow_go_nodup (ntf : List (String × String)) (sid : String)
    (deps : List String) (row : List String) (hrow : row.Nodup) :
    (deps.foldl (depRowStep ntf sid) row).Nodup := by
  induction deps generalizing row with
  | nil => exact hrow
  | cons nm rest ih =>
      rw [List.foldl_cons]
      exact ih _ (depRowStep_nodup ntf sid row nm hrow)

theorem depRow_nodup (ntf : List (String × String)) (sid : String) (s : SymbolDef) :
    (depRow ntf sid s).Nodup :=
  depRow_go_nodup ntf sid _ [] List.nodup_nil

/-- Membership in a dependency row: a definition-time dependency name that
resolves through `name_to_first_id` to a different id. -/
theorem depRow_go_mem (ntf : List (String × String)) (sid : String)
    (deps : List String) (row : List String) (d : String) :
    d ∈ deps.foldl (depRowStep ntf sid) row ↔
      (d ∈ row ∨ ∃ nm ∈ deps, dlookup ntf nm = some d ∧ d ≠ sid) := by
  induction deps generalizing row with
  | nil => simp
  | cons nm rest ih =>
      rw [List.foldl_cons, ih, depRowStep_mem]
      constructor
      · rintro ((hd | hd) | ⟨nm2, h2, h3, h4⟩)
        · exact Or.inl hd
        · exact Or.inr ⟨nm, List.mem_cons_self _ _, hd.1, hd.2⟩
        · exact Or.inr ⟨nm2, List.mem_cons_of_mem _ h2, h3, h4⟩
      · rintro (hd | ⟨nm2, h2, h3, h4⟩)
        · exact Or.inl (Or.inl hd)
        · rcases List.mem_cons.mp h2 with he | he
          · exact Or.inl (Or.inr ⟨he ▸ h3, h4⟩)
          · exact Or.inr ⟨nm2, he, h3, h4⟩

theorem depRow_mem (ntf : List (String × String)) (sid : String) (s : SymbolDef)
    (d : String) :
    d ∈ depRow ntf sid s ↔
      ∃ nm ∈ definitionTimeDeps s.node, dlookup ntf nm = some d ∧ d ≠ sid := by
  unfold depRow
  rw [depRow_go_mem]
  simp

theorem fupd_self {α : Type} (f : String → α) (k : String) (v : α) : fupd f k v k = v := by
  unfold fupd
  rw [if_pos rfl]

theorem fupd_ne {α : Type} (f : String → α) (k : String) (v : α) {x : String}
    (h : x ≠ k) : fupd f k v x = f x := by
  unfold fupd
  rw [if_neg h]

theorem relaxOne_out (sid other : String) (s : KState) :
    (relaxOne sid other s).out = s.out := by
  unfold relaxOne
  by_cases h1 : sid ∈ s.deps other
  · rw [if_pos h1]
    by_cases h2 : ((s.deps other).erase sid).length = 0 ∧ other ∉ s.ready ∧ other ∉ s.out
    · rw [if_pos h2]
    · rw [if_neg h2]
  · rw [if_neg h1]

theorem relaxOne_deps_ne (sid other : String) (s : KState) {k : String}
    (h : k ≠ other) : (relaxOne sid other s).deps k = s.deps k := by
  unfold relaxOne
  by_cases h1 : sid ∈ s.deps other
  · rw [if_pos h1]
    by_cases h2 : ((s.deps other).erase sid).length = 0 ∧ other ∉ s.ready ∧ other ∉ s.out
    · rw [if_pos h2]
      exact fupd_ne _ _ _ h
    · rw [if_neg h2]
      exact fupd_ne _ _ _ h
  · rw [if_neg h1]

theorem relaxOne_deps_self (sid other : String) (s : KState)
    (hnd : (s.deps other).Nodup) :
    ∀ d, d ∈ (relaxOne sid other s).deps other ↔ (d ∈ s.deps other ∧ d ≠ sid) := by
  intro d
  unfold relaxOne
  by_cases h1 : sid ∈ s.deps other
  · rw [if_pos h1]
    by_cases h2 : ((s.deps other).erase sid).length = 0 ∧ other ∉ s.ready ∧ other ∉ s.out
    · rw [if_pos h2]
      show d ∈ fupd s.deps other ((s.deps other).erase sid) other ↔ _
      rw [fupd_self, hnd.mem_erase_iff]
      exact and_comm
    · rw [if_neg h2]
      show d ∈ fupd s.deps other ((s.deps other).erase sid) other ↔ _
      rw [fupd_self, hnd.mem_erase_iff]
      exact and_comm
  · rw [if_neg h1]
    constructor
    · intro hd
      exact ⟨hd, fun he => h1 (he ▸ hd)⟩
    · exact And.left

theorem relaxOne_deps_self_nodup (sid other : String) (s : KState)
    (hnd : (s.deps other).Nodup) :
    ((relaxOne sid other s).deps other).Nodup := by
  unfold relaxOne
  by_cases h1 : sid ∈ s.deps other
  · rw [if_pos h1]
    by_cases h2 : ((s.deps other).erase sid).length = 0 ∧ other ∉ s.ready ∧ other ∉ s.out
    · rw [if_pos h2]
      show (fupd s.deps other ((s.deps other).erase sid) other).Nodup
      rw [fupd_self]
      exact hnd.erase sid
    · rw [if_neg h2]
      show (fupd s.deps other ((s.deps other).erase sid) other).Nodup
      rw [fupd_self]
      exact hnd.erase sid
  · rw [if_neg h1]
    exact hnd

theorem relaxOne_of_empty (sid other : String) (s : KState)
    (h : s.deps other = []) : relaxOne sid other s = s := by
  unfold relaxOne
  rw [if_neg (by rw [h]; simp)]

/-- The ready queue after one relaxation: unchanged, or appended with the
relaxed node whose row just emptied and which was neither queued nor
emitted. -/
theorem relaxOne_ready_spec (sid other : String) (s : KState) :
    ((relaxOne sid other s).ready = s.ready ∧
      (∀ x, (relaxOne sid other s).deps x = [] → s.deps x = [] ∨ x = other)) ∨
    ((relaxOne sid other s).ready = s.ready ++ [other] ∧
      other ∉ s.ready ∧ other ∉ s.out ∧ (relaxOne sid other s).deps other = []) := by
  unfold relaxOne
  by_cases h1 : sid ∈ s.deps other
  · rw [if_pos h1]
    by_cases h2 : ((s.deps other).erase sid).length = 0 ∧ other ∉ s.ready ∧ other ∉ s.out
    · rw [if_pos h2]
      right
      refine ⟨rfl, h2.2.1, h2.2.2, ?_⟩
      show fupd s.deps other ((s.deps other).erase sid) other = []
      rw [fupd_self]
      exact List.length_eq_zero.mp h2.1
    · rw [if_neg h2]
      left
      refine ⟨rfl, ?_⟩
      intro x hx
      by_cases hxo : x = other
      · exact Or.inr hxo
      · left
        show s.deps x = []
        rw [← fupd_ne s.deps other ((s.deps other).erase sid) hxo]
        exact hx
  · rw [if_neg h1]
    exact Or.inl ⟨rfl, fun x hx => Or.inl hx⟩

/-- Invariant of the inner `for other in order` relaxation fold: after
processing the remaining list `l`, every row of the order is fully relaxed
with respect to the just-emitted `sid`, and the ready queue keeps its
discipline. -/
theorem relax_go (sid : String) (origRow deps : String → List String)
    (out0 : List String) (order : List String)
    (hA : ∀ k ∈ order, ∀ d, d ∈ deps k ↔ (d ∈ origRow k ∧ d ∉ out0))
    (hB : ∀ k ∈ order, (deps k).Nodup) :
    ∀ (l : List String) (stm : KState),
      l.Nodup → (∀ k ∈ l, k ∈ order) →
      stm.out = out0 ++ [sid] →
      (∀ k ∈ l, stm.deps k = deps k) →
      (∀ k ∈ order, k ∉ l →
        ((∀ d, d ∈ stm.deps k ↔ (d ∈ origRow k ∧ d ∉ out0 ++ [sid])) ∧
          (stm.deps k).Nodup)) →
      (∀ x ∈ stm.ready, stm.deps x = []) →
      stm.ready.Nodup →
      (∀ x ∈ stm.ready, x ∉ out0 ++ [sid]) →
      (∀ x ∈ stm.ready, x ∈ order) →
      ∀ stf, stf = l.foldl (fun s o => relaxOne sid o s) stm →
      (stf.out = out0 ++ [sid] ∧
       (∀ k ∈ order,
         (∀ d, d ∈ stf.deps k ↔ (d ∈ origRow k ∧ d ∉ out0 ++ [sid])) ∧
         (stf.deps k).Nodup) ∧
       (∀ x ∈ stf.ready, stf.deps x = []) ∧
       stf.ready.Nodup ∧
       (∀ x ∈ stf.ready, x ∉ out0 ++ [sid]) ∧
       (∀ x ∈ stf.ready, x ∈ order)) := by
  intro l
  induction l with
  | nil =>
      intro stm _ _ h3 _ h5 h6 h7 h8 h9 stf hstf
      subst hstf
      exact ⟨h3, fun k hk => h5 k hk (by simp), h6, h7, h8, h9⟩
  | cons h l' ih =>
      intro stm hnd hsub h3 h4 h5 h6 h7 h8 h9 stf hstf
      rw [List.nodup_cons] at hnd
      have hho : h ∈ order := hsub h (List.mem_cons_self _ _)
      have hrowh : stm.deps h = deps h := h4 h (List.mem_cons_self _ _)
      have hndh : (stm.deps h).Nodup := by rw [hrowh]; exact hB h hho
      rw [List.foldl_cons] at hstf
      apply ih (relaxOne sid h stm) hnd.2
        (fun k hk => hsub k (List.mem_cons_of_mem _ hk))
        (by rw [relaxOne_out, h3])
        (fun k hk => by
          rw [relaxOne_deps_ne sid h stm (fun he => hnd.1 (he ▸ hk))]
          exact h4 k (List.mem_cons_of_mem _ hk))
        ?_ ?_ ?_ ?_ ?_ stf hstf
      · -- relaxed rows for k ∉ l'
        intro k hk hkl
        by_cases hkh : k = h
        · subst hkh
          constructor
          · intro d
            rw [relaxOne_deps_self sid k stm hndh d, hrowh, hA k hk]
            rw [List.mem_append, List.mem_singleton]
            constructor
            · rintro ⟨⟨hd1, hd2⟩, hd3⟩
              exact ⟨hd1, fun hc => hc.elim hd2 hd3⟩
            · rintro ⟨hd1, hd2⟩
              exact ⟨⟨hd1, fun hc => hd2 (Or.inl hc)⟩, fun hc => hd2 (Or.inr hc)⟩
          · exact relaxOne_deps_self_nodup sid k stm hndh
        · have hknotl : k ∉ h :: l' := by
            intro hc
            rcases List.mem_cons.mp hc with hc | hc
            · exact hkh hc
            · exact hkl hc
          have prev := h5 k hk hknotl
          rw [relaxOne_deps_ne sid h stm hkh]
          exact prev
      · -- ready rows empty
        intro x hx
        rcases relaxOne_ready_spec sid h stm with ⟨hr, _⟩ | ⟨hr, hnr, _, hdh⟩
        · rw [hr] at hx
          by_cases hxh : x = h
          · subst hxh
            have hold := h6 x hx
            rw [relaxOne_of_empty sid x stm hold]
            exact hold
          · rw [relaxOne_deps_ne sid h stm hxh]
            exact h6 x hx
        · rw [hr, List.mem_append, List.mem_singleton] at hx
          rcases hx with hx | hx
          · have hxh : x ≠ h := fun he => hnr (he ▸ hx)
            rw [relaxOne_deps_ne sid h stm hxh]
            exact h6 x hx
          · subst hx
            exact hdh
      · -- ready nodup
        rcases relaxOne_ready_spec sid h stm with ⟨hr, _⟩ | ⟨hr, hnr, _, _⟩
        · rw [hr]; exact h7
        · rw [hr, List.nodup_append]
          exact ⟨h7, List.nodup_singleton _, by
            intro a ha hb
            rw [List.mem_singleton] at hb
            exact hnr (hb ▸ ha)⟩
      · -- ready not emitted
        intro x hx
        rcases relaxOne_ready_spec sid h stm with ⟨hr, _⟩ | ⟨hr, _, hno, _⟩
        · rw [hr] at hx
          exact h8 x hx
        · rw [hr, List.mem_append, List.mem_singleton] at hx
          rcases hx with hx | hx
          · exact h8 x hx
          · subst hx
            rw [← h3]
            exact hno
      · -- ready in order
        intro x hx
        rcases relaxOne_ready_spec sid h stm with ⟨hr, _⟩ | ⟨hr, _, _, _⟩
        · rw [hr] at hx
          exact h9 x hx
        · rw [hr, List.mem_append, List.mem_singleton] at hx
          rcases hx with hx | hx
          · exact h9 x hx
          · exact hx ▸ hho

/-- A duplicate-free sublist of a duplicate-free list of at most its length
exhausts it. -/
theorem nodup_subset_full {l u : List String} (hl : l.Nodup) (hu : u.Nodup)
    (hsub : ∀ x ∈ l, x ∈ u) (hlen : u.length ≤ l.length) : ∀ x ∈ u, x ∈ l := by
  intro x hx
  have h1 : l.toFinset ⊆ u.toFinset := fun y hy => by
    rw [List.mem_toFinset] at hy ⊢
    exact hsub y hy
  have h2 : u.toFinset.card ≤ l.toFinset.card := by
    rw [List.toFinset_card_of_nodup hl, List.toFinset_card_of_nodup hu]
    exact hlen
  have he := Finset.eq_of_subset_of_card_le h1 h2
  rw [← List.mem_toFinset, ← he, List.mem_toFinset] at hx
  exact hx

/-- Postcondition of the Kahn `while` loop: with fuel at least the number
of nodes left to emit, the emitted list is duplicate-free, stays in the
order, and respects every original dependency row. -/
theorem kahnRun_post (order : List String) (origRow : String → List String)
    (hord : order.Nodup) :
    ∀ (fuel : Nat) (st : KState),
      (∀ k ∈ order, ∀ d, d ∈ st.deps k ↔ (d ∈ origRow k ∧ d ∉ st.out)) →
      (∀ k ∈ order, (st.deps k).Nodup) →
      (∀ x ∈ st.ready, st.deps x = []) →
      st.ready.Nodup →
      (∀ x ∈ st.ready, x ∉ st.out) →
      (∀ x ∈ st.ready, x ∈ order) →
      st.out.Nodup →
      (∀ x ∈ st.out, x ∈ order) →
      (∀ k ∈ st.out, ∀ d ∈ origRow k,
        d ∈ st.out ∧ st.out.indexOf d < st.out.indexOf k) →
      order.length ≤ fuel + st.out.length →
      ((kahnRun order fuel st).Nodup ∧
       (∀ x ∈ kahnRun order fuel st, x ∈ order) ∧
       (∀ k ∈ kahnRun order fuel st, ∀ d ∈ origRow k,
         d ∈ kahnRun order fuel st ∧
         (kahnRun order fuel st).indexOf d < (kahnRun order fuel st).indexOf k)) := by
  intro fuel
  induction fuel with
  | zero =>
      intro st hA hB h6 h7 h8 h9 hON hOS hOrd hfuel
      obtain ⟨ready, out, deps⟩ := st
      cases ready with
      | nil => exact ⟨hON, hOS, hOrd⟩
      | cons sid rest =>
          exfalso
          have hfull : ∀ x ∈ order, x ∈ out :=
            nodup_subset_full hON hord hOS (by simpa using hfuel)
          exact h8 sid (List.mem_cons_self _ _)
            (hfull sid (h9 sid (List.mem_cons_self _ _)))
  | succ fuel ih =>
      intro st hA hB h6 h7 h8 h9 hON hOS hOrd hfuel
      obtain ⟨ready, out, deps⟩ := st
      cases ready with
      | nil => exact ⟨hON, hOS, hOrd⟩
      | cons sid rest =>
          simp only at hA hB h6 h7 h8 h9 hON hOS hOrd hfuel
          have hsid_ord : sid ∈ order := h9 sid (List.mem_cons_self _ _)
          have hsid_out : sid ∉ out := h8 sid (List.mem_cons_self _ _)
          have hsid_row : deps sid = [] := h6 sid (List.mem_cons_self _ _)
          have h7c := List.nodup_cons.mp h7
          have hrelax := relax_go sid origRow deps out order
            (fun k hk d => hA k hk d) hB order
            ⟨rest, out ++ [sid], deps⟩ hord (fun k hk => hk) rfl
            (fun k _ => rfl) (fun k _ hk2 => absurd (by assumption) hk2)
            (fun x hx => h6 x (List.mem_cons_of_mem _ hx)) h7c.2
            (fun x hx => by
              rw [List.mem_append, List.mem_singleton]
              rintro (hc | hc)
              · exact h8 x (List.mem_cons_of_mem _ hx) hc
              · exact h7c.1 (hc ▸ hx))
            (fun x hx => h9 x (List.mem_cons_of_mem _ hx))
            (kahnStep order sid ⟨rest, out ++ [sid], deps⟩) rfl
          obtain ⟨c1, c2, c3, c4, c5, c6⟩ := hrelax
          have houtN : (out ++ [sid]).Nodup := by
            rw [List.nodup_append]
            exact ⟨hON, List.nodup_singleton _, by
              intro a ha hb
              rw [List.mem_singleton] at hb
              exact hsid_out (hb ▸ ha)⟩
          have houtS : ∀ x ∈ out ++ [sid], x ∈ order := by
            intro x hx
            rw [List.mem_append, List.mem_singleton] at hx
            rcases hx with hx | hx
            · exact hOS x hx
            · exact hx ▸ hsid_ord
          have hOrd2 : ∀ k ∈ out ++ [sid], ∀ d ∈ origRow k,
              d ∈ out ++ [sid] ∧
              (out ++ [sid]).indexOf d < (out ++ [sid]).indexOf k := by
            intro k hk d hd
            rw [List.mem_append, List.mem_singleton] at hk
            rcases hk with hk | hk
            · obtain ⟨hd1, hd2⟩ := hOrd k hk d hd
              refine ⟨List.mem_append_left _ hd1, ?_⟩
              rw [List.indexOf_append_of_mem hd1, List.indexOf_append_of_mem hk]
              exact hd2
            · subst hk
              have hdout : d ∈ out := by
                by_contra hdc
                have := (hA k hsid_ord d).mpr ⟨hd, hdc⟩
                rw [hsid_row] at this
                simp at this
              refine ⟨List.mem_append_left _ hdout, ?_⟩
              rw [List.indexOf_append_of_mem hdout,
                List.indexOf_append_of_not_mem hsid_out, List.indexOf_cons_self,
                Nat.add_zero]
              exact List.indexOf_lt_length.mpr hdout
          have hfin := ih (kahnStep order sid ⟨rest, out ++ [sid], deps⟩)
            (fun k hk d => by rw [c1] at *; exact (c2 k hk).1 d)
            (fun k hk => (c2 k hk).2) c3 c4
            (fun x hx => by rw [c1]; exact c5 x hx) c6
            (by rw [c1]; exact houtN) (by rw [c1]; exact houtS)
            (by rw [c1]; exact hOrd2)
            (by rw [c1]; simp only [List.length_append, List.length_cons,
                List.length_nil]; omega)
          exact hfin

/-- The Kahn output for a duplicate-free symbol list: duplicate-free,
within the order, and respecting every dependency row. -/
theorem kahnOut_spec (symbols : List SymbolDef) (hnd : (symbols.map sidOf).Nodup) :
    (kahnOutOf symbols).Nodup ∧
    (∀ x ∈ kahnOutOf symbols, x ∈ orderOf symbols) ∧
    (∀ k ∈ kahnOutOf symbols, ∀ d ∈ depsOf symbols k,
      d ∈ kahnOutOf symbols ∧
      (kahnOutOf symbols).indexOf d < (kahnOutOf symbols).indexOf k) := by
  have hord : (orderOf symbols).Nodup := hnd
  have hrowsN : ∀ k ∈ orderOf symbols, (depsOf symbols k).Nodup := by
    intro k hk
    obtain ⟨s, hs, hks⟩ := List.mem_map.mp hk
    rw [← hks, depsOf_eq_depRow hnd hs]
    exact depRow_nodup _ _ _
  exact kahnRun_post (orderOf symbols) (depsOf symbols) hord
    (2 * (orderOf symbols).length + 1)
    ⟨(orderOf symbols).filter (fun sid => (depsOf symbols sid).length = 0), [],
      depsOf symbols⟩
    (fun k _ d => by simp)
    hrowsN
    (fun x hx => List.length_eq_zero.mp (by
      have := List.mem_filter.mp hx
      simpa using this.2))
    (hord.filter _)
    (fun x _ => by simp)
    (fun x hx => (List.mem_filter.mp hx).1)
    List.nodup_nil
    (fun x hx => absurd hx (List.not_mem_nil x))
    (fun k hk => absurd hk (List.not_mem_nil k))
    (by omega)

/-- C4: when the topological sort emits every node, every definition-time
dependency edge (A depends on the name of B, where B is the
first-registered definition of that name and a distinct node) places B
strictly before A in the emitted order; when it does not, the entire output
is the original inclusion order. -/
theorem claim_C4_ordering (symbols : List SymbolDef)
    (hnd : (symbols.map sidOf).Nodup) :
    ((kahnOutOf symbols).length = symbols.length →
      ∀ A ∈ symbols, ∀ B ∈ symbols,
        B.name ∈ definitionTimeDeps A.node →
        dlookup (nameToFirstOf symbols) B.name = some (sidOf B) →
        sidOf B ≠ sidOf A →
        (B ∈ topoSortSymbols symbols ∧ A ∈ topoSortSymbols symbols ∧
         ((topoSortSymbols symbols).map sidOf).indexOf (sidOf B) <
           ((topoSortSymbols symbols).map sidOf).indexOf (sidOf A))) ∧
    ((kahnOutOf symbols).length ≠ symbols.length →
      topoSortSymbols symbols = symbols) := by
  obtain ⟨FN, FS, FOrd⟩ := kahnOut_spec symbols hnd
  have hordlen : (orderOf symbols).length = symbols.length := List.length_map _ _
  constructor
  · intro hlen A hA B hB hdep hfirst hne
    have hfull : ∀ x ∈ orderOf symbols, x ∈ kahnOutOf symbols :=
      nodup_subset_full FN hnd FS (by rw [hordlen, hlen])
    have hedge : sidOf B ∈ depsOf symbols (sidOf A) := by
      rw [depsOf_eq_depRow hnd hA, depRow_mem]
      exact ⟨B.name, hdep, hfirst, hne⟩
    have hAF : sidOf A ∈ kahnOutOf symbols :=
      hfull _ (List.mem_map_of_mem sidOf hA)
    obtain ⟨hBF, hidx⟩ := FOrd (sidOf A) hAF (sidOf B) hedge
    have hres : topoSortSymbols symbols =
        (kahnOutOf symbols).map (dgetD (byIdOf symbols)) := by
      cases hsyms : symbols with
      | nil => exact absurd (hsyms ▸ hA) (List.not_mem_nil A)
      | cons s0 rest =>
          show (if (kahnOutOf (s0 :: rest)).length ≠ (orderOf (s0 :: rest)).length
            then s0 :: rest
            else (kahnOutOf (s0 :: rest)).map fun sid =>
              dgetD (byIdOf (s0 :: rest)) sid) = _
          rw [if_neg (fun hc => hc (by rw [← hsyms, hordlen, hlen]))]
    have hmapF : (topoSortSymbols symbols).map sidOf = kahnOutOf symbols := by
      rw [hres, List.map_map]
      have hcong : ∀ x ∈ kahnOutOf symbols,
          (sidOf ∘ dgetD (byIdOf symbols)) x = id x := by
        intro x hx
        obtain ⟨s, hs, hks⟩ := List.mem_map.mp (FS x hx)
        show sidOf (dgetD (byIdOf symbols) x) = x
        rw [← hks, dgetD_eq (byId_lookup hnd hs)]
      rw [List.map_congr_left hcong, List.map_id]
    refine ⟨?_, ?_, ?_⟩
    · rw [hres]
      exact List.mem_map.mpr ⟨sidOf B, hBF, dgetD_eq (byId_lookup hnd hB)⟩
    · rw [hres]
      exact List.mem_map.mpr ⟨sidOf A, hAF, dgetD_eq (byId_lookup hnd hA)⟩
    · rw [hmapF]
      exact hidx
  · intro hlen
    cases hsyms : symbols with
    | nil =>
        rw [hsyms] at hlen
        exact absurd rfl hlen
    | cons s0 rest =>
        rw [hsyms] at hlen hordlen
        show (if (kahnOutOf (s0 :: rest)).length ≠ (orderOf (s0 :: rest)).length
          then s0 :: rest
          else (kahnOutOf (s0 :: rest)).map fun sid =>
            dgetD (byIdOf (s0 :: rest)) sid) = _
        rw [if_pos (by rw [hordlen]; exact hlen)]

theorem claim_C4_ordering_witness :
    symBase ∈ topoSortSymbols symsC4 ∧ symFoo ∈ topoSortSymbols symsC4 ∧
    ((topoSortSymbols symsC4).map sidOf).indexOf (sidOf symBase) <
      ((topoSortSymbols symsC4).map sidOf).indexOf (sidOf symFoo) :=
  (claim_C4_ordering symsC4 (by decide)).1 (by decide) symFoo (by decide)
    symBase (by decide) (by decide) (by decide) (by decide)

end Bundle
